import Mathlib

/-!
Shallow embedding of the tree mutation and search engine of
`react-complex-tree-poc` (src/src/App.tsx, current revision, together with the
initial data in src/src/data.ts).  The node store is a JavaScript object
(string-keyed record) modelled as an association list that preserves key
insertion order, which is exactly the order `Object.keys` enumerates for
string keys.  `Date.now()` / `Math.random()` samples are modelled as an
environment `env : Nat → Nat` consumed at successive indices.
-/

abbrev ItemId := String

/-- The closed `type` enumeration of `ItemData` in App.tsx. -/
inductive Category where
  | Conference | Division | Team
deriving DecidableEq

/-- `ItemData` from App.tsx: display name and category tag. -/
structure ItemData where
  name : String
  type : Category
deriving DecidableEq

/-- A `LeagueItem` (TreeItem) from App.tsx.  The redundant `index` field (always
equal to the record key) is dropped; optional TS fields are `Option`s. -/
structure Item where
  isFolder : Option Bool := none
  children : Option (List ItemId) := none
  data : ItemData
  canMove : Option Bool := none
  canRename : Option Bool := none
deriving DecidableEq

/-- The `items` record: key/value list in insertion order (JS object keys are
unique; `Object.keys` yields them in insertion order for string keys). -/
abbrev Items := List (ItemId × Item)

/-- Property lookup `items[k]`: the (first) entry with key `k`. -/
def lookupJS : Items → ItemId → Option Item
  | [], _ => none
  | p :: ps, k => if p.1 = k then some p.2 else lookupJS ps k

/-- Property assignment `items[k] = v`: update in place when the key exists,
append otherwise — JS object semantics. -/
def insertJS (k : ItemId) (v : Item) (m : Items) : Items :=
  if (lookupJS m k).isSome then
    m.map (fun p => if p.1 = k then (k, v) else p)
  else
    m ++ [(k, v)]

/-- Property deletion `delete items[k]`. -/
def removeJS (k : ItemId) (m : Items) : Items :=
  m.filter (fun p => decide (p.1 ≠ k))

/-- `Object.keys(items)`. -/
def keysOf (m : Items) : List ItemId := m.map Prod.fst

/-- `Object.keys(items).find(key => items[key].children?.includes(childId))`
(App.tsx 1235, 1259): the first entry whose `children` list holds `childId`;
entries are scanned in key order and each key's value is its own entry. -/
def findParent (m : Items) (childId : ItemId) : Option ItemId :=
  (m.find? (fun p => (p.2.children.getD []).contains childId)).map Prod.fst

/-- JS `String.prototype.toLowerCase` restricted to the character-wise case
mapping used by the source's ASCII names. -/
def toLowerStr (s : String) : String := ⟨s.data.map Char.toLower⟩

/-- Bool prefix test on character lists. -/
def isPrefixB : List Char → List Char → Bool
  | [], _ => true
  | _ :: _, [] => false
  | a :: as, b :: bs => a = b && isPrefixB as bs

/-- Bool infix (substring) test on character lists. -/
def isInfixB (sub : List Char) : List Char → Bool
  | [] => isPrefixB sub []
  | b :: bs => isPrefixB sub (b :: bs) || isInfixB sub bs

/-- JS `hay.includes(sub)`: substring containment (empty `sub` always holds). -/
def jsIncludes (hay sub : String) : Bool := isInfixB sub.toList hay.toList

/-- The case-insensitive name test `item.data.name.toLowerCase()
.includes(q.toLowerCase())` used throughout App.tsx. -/
def matchesName (it : Item) (q : String) : Bool :=
  jsIncludes (toLowerStr it.data.name) (toLowerStr q)

/-- `doesSearchMatchItem` (App.tsx 1712–1715): false on an empty search text or
an empty name (both are falsy), otherwise the case-insensitive substring test. -/
def doesSearchMatchItem (searchText : String) (it : Item) : Bool :=
  if searchText = "" ∨ it.data.name = "" then false
  else matchesName it searchText

/-! ## Mutation handlers (App.tsx, current revision) -/

/-- `handleRenameItem` (App.tsx 960–974): overwrite `data.name` when the id is
present; a missing id leaves the record untouched (the `if` guard). -/
def handleRenameItem (itemIndex : ItemId) (newName : String) (m : Items) : Items :=
  match lookupJS m itemIndex with
  | none => m
  | some it => insertJS itemIndex { it with data := { it.data with name := newName } } m

/-- `handleEditItem` (App.tsx 977–993): overwrite name and type when present. -/
def handleEditItem (itemId : ItemId) (nm : String) (ty : Category) (m : Items) : Items :=
  match lookupJS m itemId with
  | none => m
  | some it => insertJS itemId { it with data := { name := nm, type := ty } } m

/-- The id `handleAddSubGroup` generates: `${parentId}-subgroup-${Date.now()}`. -/
def addSubGroupId (parentId : ItemId) (ts : Nat) : ItemId :=
  parentId ++ "-subgroup-" ++ Nat.repr ts

/-- `handleAddSubGroup` (App.tsx 1173–1207): create a fresh empty group, mark
the parent a folder, initialise its `children` when absent, and prepend the
new id to the parent's children. -/
def handleAddSubGroup (parentId : ItemId) (ts : Nat) (m : Items) : Items :=
  let newId := addSubGroupId parentId ts
  let newGroup : Item :=
    { isFolder := some true, children := some [],
      data := { name := "New Group", type := Category.Division },
      canMove := some true, canRename := some true }
  let m1 := insertJS newId newGroup m
  match lookupJS m1 parentId with
  | none => m1
  | some pit =>
      insertJS parentId
        { pit with isFolder := some true,
                   children := some (newId :: pit.children.getD []) } m1

/-- The id `handleCreateTopLevelGroup` generates: `group-${Date.now()}`. -/
def topGroupId (ts : Nat) : ItemId := "group-" ++ Nat.repr ts

/-- `handleCreateTopLevelGroup` (App.tsx 1001–1031): create a fresh empty group
and append its id to the root's children. -/
def handleCreateTopLevelGroup (nm : String) (ty : Category) (ts : Nat) (m : Items) : Items :=
  let newId := topGroupId ts
  let g : Item :=
    { isFolder := some true, children := some [],
      data := { name := nm, type := ty },
      canMove := some true, canRename := some true }
  let m1 := insertJS newId g m
  match lookupJS m1 "root" with
  | none => m1
  | some r => insertJS "root" { r with children := some (r.children.getD [] ++ [newId]) } m1

/-- `handleDelete` (App.tsx 1232–1251): locate the parent by scanning all
`children` lists; when found, filter the id out of that parent's children and
delete the single entry `items[id]`.  No descendant is touched, and when no
parent exists (in particular for the root) nothing happens at all. -/
def handleDelete (itemId : ItemId) (m : Items) : Items :=
  match findParent m itemId with
  | none => m
  | some p =>
      match lookupJS m p with
      | none => m
      | some pit =>
          let m1 := insertJS p
            { pit with children := pit.children.map (·.filter (fun i => decide (i ≠ itemId))) } m
          removeJS itemId m1

/-- The id `deepCopyItem` generates for a cloned child:
`${newId}-${childId}-${Date.now() + Math.floor(Math.random() * 1000)}`; the
sampled number is the environment value. -/
def cloneChildId (pId cId : ItemId) (tsv : Nat) : ItemId :=
  pId ++ "-" ++ cId ++ "-" ++ Nat.repr tsv

/-- The non-recursive part of `deepCopyItem` (App.tsx 1309–1318): fresh index,
same `isFolder`, name with the `" (Copy)"` marker appended, same type, and the
capability flags reset to `true`.  `children` is only added later when the
original has a non-empty children list. -/
def baseCopy (item : Item) : Item :=
  { isFolder := item.isFolder, children := none,
    data := { name := item.data.name ++ " (Copy)", type := item.data.type },
    canMove := some true, canRename := some true }

/-- The `item.children.forEach` loop of `deepCopyItem` (App.tsx 1325–1340),
with the recursive clone call abstracted as `recFn`.  Looks each child up in
the record as mutated so far, draws an environment sample for its fresh id,
clones it recursively, stores the clone, and records the new child id. -/
def copyChildrenAux (recFn : Item → ItemId → Items → Nat → Item × Items × Nat) :
    List ItemId → ItemId → Items → (Nat → Nat) → Nat → List ItemId × Items × Nat
  | [], _, m, _, σ => ([], m, σ)
  | c :: cs, pId, m, env, σ =>
      match lookupJS m c with
      | none => copyChildrenAux recFn cs pId m env σ
      | some childItem =>
          let ncid := cloneChildId pId c (env σ)
          let r := recFn childItem ncid m (σ + 1)
          let m2 := insertJS ncid r.1 r.2.1
          let rest := copyChildrenAux recFn cs pId m2 env r.2.2
          (ncid :: rest.1, rest.2)

/-- `deepCopyItem` (App.tsx 1307–1344), fuelled: the source recursion
terminates only on finite acyclic subtrees, which the fuel bound makes
explicit (theorems only use runs whose subtree the fuel covers). -/
def deepCopyItem : Nat → Item → ItemId → Items → (Nat → Nat) → Nat → Item × Items × Nat
  | 0, item, _, m, _, σ => (baseCopy item, m, σ)
  | fuel + 1, item, newId, m, env, σ =>
      match item.children with
      | none => (baseCopy item, m, σ)
      | some l =>
          if l.isEmpty then (baseCopy item, m, σ)
          else
            let r := copyChildrenAux
              (fun ci ncid m' σ' => deepCopyItem fuel ci ncid m' env σ') l newId m env σ
            ({ baseCopy item with children := some r.1 }, r.2)

/-- The id `handleDuplicate` generates for the clone root:
`${itemId}-copy-${Date.now()}` (environment sample 0). -/
def dupNewId (itemId : ItemId) (env : Nat → Nat) : ItemId :=
  itemId ++ "-copy-" ++ Nat.repr (env 0)

/-- Insert `x` at position `n` of a list, clamped to the end — the effect of
JS `splice(n, 0, x)` for a non-negative `n`. -/
def insertAt : Nat → ItemId → List ItemId → List ItemId
  | 0, x, l => x :: l
  | _ + 1, x, [] => [x]
  | n + 1, x, a :: l => a :: insertAt n x l

/-- `children.indexOf(target)` followed by `splice(idx + 1, 0, x)`
(App.tsx 1270–1272): insert after the first occurrence of `target`, or at the
front when `indexOf` yields `-1`. -/
def jsSpliceAfter (x target : ItemId) (l : List ItemId) : List ItemId :=
  match l.findIdx? (fun a => decide (a = target)) with
  | some i => insertAt (i + 1) x l
  | none => insertAt 0 x l

/-- `handleDuplicate` (App.tsx 1253–1278): when the item and its parent exist,
deep-copy the subtree (mutating the record with the descendant clones), store
the clone root, and splice its id into the parent's children directly after
the original. -/
def handleDuplicate (fuel : Nat) (itemId : ItemId) (env : Nat → Nat) (m : Items) : Items :=
  let newId := dupNewId itemId env
  match lookupJS m itemId, findParent m itemId with
  | some orig, some parentId =>
      let r := deepCopyItem fuel orig newId m env 1
      let m2 := insertJS newId r.1 r.2.1
      match lookupJS m2 parentId with
      | none => m2
      | some parentItem =>
          match parentItem.children with
          | none => m2
          | some l => insertJS parentId { parentItem with children := some (jsSpliceAfter newId itemId l) } m2
  | _, _ => m

/-- `handleItemDrop` (App.tsx 876–918), `targetType === 'item'` branch: give
the drop target an empty `children` array when it has none and force its
`isFolder` flag — the folder-conversion side of a drop.  The actual insertion
of the dragged item into the target's children is performed inside the
react-complex-tree library, not in this repository. -/
def handleItemDrop (targetId : ItemId) (m : Items) : Items :=
  match lookupJS m targetId with
  | none => m
  | some it =>
      let it1 := if it.children = none then { it with children := some ([] : List ItemId) } else it
      let it2 := if it1.isFolder ≠ some true then { it1 with isFolder := some true } else it1
      insertJS targetId it2 m

/-- Modelled from the spec: the move itself that the react-complex-tree
library applies once a drop has passed validation — code that is not under
src/.  Per the spec's `reparent`: remove the moved id from its current
parent's `children`, folder-convert the target when its `children` field is
absent, and insert the moved id into the target's children (at the back). -/
def moveEntry (movedId targetId : ItemId) (m : Items) : Items :=
  match lookupJS m targetId with
  | none => m
  | some _ =>
      let m1 :=
        match findParent m movedId with
        | none => m
        | some p =>
            match lookupJS m p with
            | none => m
            | some pit =>
                insertJS p { pit with children := pit.children.map (·.filter (fun i => decide (i ≠ movedId))) } m
      match lookupJS m1 targetId with
      | none => m1
      | some tit => insertJS targetId { tit with children := some (tit.children.getD [] ++ [movedId]) } m1

/-- Modelled from the spec: the bounded proper-descendant test behind the
spec's `CyclicMove` check ("newParentId is id itself or a descendant of id")
— code that is not under src/.  True when `d` is reachable from `a` through
one or more `children` links within `fuel` steps. -/
def isDescendantB : Nat → Items → ItemId → ItemId → Bool
  | 0, _, _, _ => false
  | fuel + 1, m, a, d =>
      match lookupJS m a with
      | none => false
      | some it =>
          (it.children.getD []).any (fun c => decide (c = d) || isDescendantB fuel m c d)

/-! ## Search (App.tsx 930–949, 1034–1102) -/

/-- `hasMatchingChildren` (App.tsx 930–949), fuelled: an empty term, a missing
item, and an absent or empty children list all yield false; otherwise some
child either matches directly or has a matching descendant. -/
def hasMatchingChildren : Nat → Items → ItemId → String → Bool
  | 0, _, _, _ => false
  | fuel + 1, m, itemId, term =>
      if term = "" then false
      else
        match lookupJS m itemId with
        | none => false
        | some it =>
            match it.children with
            | none => false
            | some l =>
                if l.isEmpty then false
                else
                  l.any (fun childId =>
                    match lookupJS m childId with
                    | none => false
                    | some childItem =>
                        matchesName childItem term || hasMatchingChildren fuel m childId term)

/-- `Object.keys(items).filter(id => items[id].data.name...includes(...))`
(App.tsx 1056–1058): ids of directly matching nodes in key order. -/
def directMatches (m : Items) (value : String) : List ItemId :=
  (keysOf m).filter (fun id =>
    match lookupJS m id with
    | some it => matchesName it value
    | none => false)

/-- The first-match computation of `handleSearch` (App.tsx 1038–1089): folders
with matching descendants are collected in key order, the first direct match
in key order is preferred, and otherwise the first matching direct child found
while scanning those folders' children. -/
def firstMatchId (fuel : Nat) (m : Items) (value : String) : Option ItemId :=
  let folderItems := (keysOf m).filter (fun id =>
    match lookupJS m id with
    | some it => it.children.isSome && !(it.children.getD []).isEmpty
    | none => false)
  let foldersWithMatches := folderItems.filter (fun id => hasMatchingChildren fuel m id value)
  let firstChildMatch := foldersWithMatches.findSome? (fun folderId =>
    match lookupJS m folderId with
    | some folder =>
        (folder.children.getD []).find? (fun childId =>
          match lookupJS m childId with
          | some child => matchesName child value
          | none => false)
    | none => none)
  match directMatches m value with
  | mt :: _ => some mt
  | [] => firstChildMatch

/-- Bounded proper-descendant relation: `d` is reachable from `a` by following
one or more `children` links, within `fuel` steps. -/
def DescIn : Nat → Items → ItemId → ItemId → Prop
  | 0, _, _, _ => False
  | fuel + 1, m, a, d =>
      ∃ it, lookupJS m a = some it ∧
        (d ∈ it.children.getD [] ∨ ∃ c ∈ it.children.getD [], DescIn fuel m c d)

/-- Pre-order id listing from a node, fuelled (spec side of the search-order
claim). -/
def preorderIds : Nat → Items → ItemId → List ItemId
  | 0, _, _ => []
  | fuel + 1, m, id =>
      match lookupJS m id with
      | none => []
      | some it => id :: (it.children.getD []).flatMap (preorderIds fuel m)

/-- Follows the spec's words: `firstMatch` prefers the first direct match in a
stable pre-order traversal from the root. -/
def firstMatchPreorder (fuel : Nat) (m : Items) (q : String) : Option ItemId :=
  (preorderIds fuel m "root").find? (fun i =>
    match lookupJS m i with
    | some it => matchesName it q
    | none => false)

/-! ## Subtree extraction and the clone mirror -/

/-- A finite unfolding of the store from one node: id, name, category and the
subtrees of the (present) children, in order. -/
inductive ITree where
  | node (id : ItemId) (name : String) (cat : Category) (kids : List ITree)

/-- Root id of an extracted subtree. -/
def rootIdT : ITree → ItemId
  | .node i _ _ _ => i

/-- Traverse a list of child ids with an extraction function, failing whenever
one of them fails. -/
def extractKidsAux (f : ItemId → Option ITree) : List ItemId → Option (List ITree)
  | [] => some []
  | c :: cs =>
      match f c, extractKidsAux f cs with
      | some t, some ts => some (t :: ts)
      | _, _ => none

/-- Extract the subtree rooted at `oid`, fuelled; `none` when the node or some
reachable child is missing, or the fuel does not cover the depth. -/
def extract : Nat → Items → ItemId → Option ITree
  | 0, _, _ => none
  | fuel + 1, m, oid =>
      match lookupJS m oid with
      | none => none
      | some it =>
          match extractKidsAux (extract fuel m) (it.children.getD []) with
          | none => none
          | some ts => some (.node oid it.data.name it.data.type ts)

mutual
def idsOfT : ITree → List ItemId
  | .node i _ _ ks => i :: idsOfL ks
def idsOfL : List ITree → List ItemId
  | [] => []
  | t :: ts => idsOfT t ++ idsOfL ts
end

/-- Ids of the proper subtrees (everything but the root). -/
def kidsIdsOf : ITree → List ItemId
  | .node _ _ _ ks => idsOfL ks

mutual
/-- The clone that `deepCopyItem` is expected to produce for an extracted
subtree: fresh root id, every name suffixed with the copy marker, same
category, children in order with ids drawn from the environment exactly as
`deepCopyItem` draws them. -/
def copyTree : ITree → ItemId → (Nat → Nat) → Nat → ITree × Nat
  | .node _ nm ty kids, newId, env, σ =>
      let r := copyKids kids newId env σ
      (.node newId (nm ++ " (Copy)") ty r.1, r.2)
def copyKids : List ITree → ItemId → (Nat → Nat) → Nat → List ITree × Nat
  | [], _, _, σ => ([], σ)
  | k :: ks, newId, env, σ =>
      let ncid := cloneChildId newId (rootIdT k) (env σ)
      let r1 := copyTree k ncid env (σ + 1)
      let r2 := copyKids ks newId env r1.2
      (r1.1 :: r2.1, r2.2)
end

/-- The expected clone of the subtree `t` of node `n` under `handleDuplicate`
with environment `env`. -/
def dupClone (t : ITree) (n : ItemId) (env : Nat → Nat) : ITree :=
  (copyTree t (dupNewId n env) env 1).1

/-- Shape of a subtree with the ids erased: what structural isomorphism is
measured against (name, category, child order). -/
inductive STree where
  | node (name : String) (cat : Category) (kids : List STree)

mutual
def shapeOf : ITree → STree
  | .node _ nm ty ks => .node nm ty (shapeOfL ks)
def shapeOfL : List ITree → List STree
  | [] => []
  | t :: ts => shapeOf t :: shapeOfL ts
end

mutual
/-- Append the copy marker to every node's name, keeping shape and category. -/
def addCopyAll : STree → STree
  | .node nm ty ks => .node (nm ++ " (Copy)") ty (addCopyAllL ks)
def addCopyAllL : List STree → List STree
  | [] => []
  | t :: ts => addCopyAll t :: addCopyAllL ts
end

/-! ## Operation outcomes and the operation alphabet -/

/-- Modelled from the spec: the error kinds the engine is said to report. -/
inductive TreeError where
  | NotFound | RootDeletion | CyclicMove | NotMovable | NotRenamable | DuplicateId
deriving DecidableEq

/-- The delete handler viewed as a result-returning operation.  The source
handler (App.tsx 1232–1251) has no failure path of any kind — it always
commits the (possibly unchanged) record — so the outcome is always `ok`. -/
def deleteOutcome (itemId : ItemId) (m : Items) : Except TreeError Items :=
  Except.ok (handleDelete itemId m)

/-- The rename handler viewed as a result-returning operation; the source
handler (App.tsx 960–974) likewise has no failure path. -/
def renameOutcome (itemIndex : ItemId) (newName : String) (m : Items) : Except TreeError Items :=
  Except.ok (handleRenameItem itemIndex newName m)

/-- Modelled from the spec: validation and execution of a reparent performed
by a drop — code that is not under src/.  All validation happens before any
mutation: `NotFound` when the moved or the target id is absent from the
store, `NotMovable` when the moved node's capability flag forbids the move,
and `CyclicMove` when the target is the moved node itself or one of its
descendants; only a validated drop performs the move. -/
def reparentDrop (fuel : Nat) (movedId targetId : ItemId) (m : Items) : Except TreeError Items :=
  match lookupJS m movedId, lookupJS m targetId with
  | none, _ => Except.error TreeError.NotFound
  | some _, none => Except.error TreeError.NotFound
  | some mit, some _ =>
      if mit.canMove = some false then Except.error TreeError.NotMovable
      else if targetId = movedId ∨ isDescendantB fuel m movedId targetId = true then
        Except.error TreeError.CyclicMove
      else Except.ok (moveEntry movedId targetId m)

/-- A complete drag-and-drop of `movedId` onto item `targetId`: the library's
validated reparent (spec-modelled) composed with the repository's `onDrop`
handler; a refused drop leaves the store untouched and the handler unrun. -/
def applyDrop (fuel : Nat) (movedId targetId : ItemId) (m : Items) : Items :=
  match reparentDrop fuel movedId targetId m with
  | Except.error _ => m
  | Except.ok m1 => handleItemDrop targetId m1

/-- The mutation operations the component exposes (context menu, modals,
drag-and-drop), with their environment samples. -/
inductive Op where
  | rename (id : ItemId) (newName : String)
  | edit (id : ItemId) (nm : String) (ty : Category)
  | addSubGroup (parentId : ItemId) (ts : Nat)
  | createTopLevel (nm : String) (ty : Category) (ts : Nat)
  | deleteIt (id : ItemId)
  | duplicate (fuel : Nat) (id : ItemId) (env : Nat → Nat)
  | drop (fuel : Nat) (movedId targetId : ItemId)

/-- Apply one operation to the store. -/
def applyOp : Op → Items → Items
  | .rename id nm, m => handleRenameItem id nm m
  | .edit id nm ty, m => handleEditItem id nm ty m
  | .addSubGroup p ts, m => handleAddSubGroup p ts m
  | .createTopLevel nm ty ts, m => handleCreateTopLevelGroup nm ty ts m
  | .deleteIt id, m => handleDelete id m
  | .duplicate fuel id env, m => handleDuplicate fuel id env m
  | .drop fuel mv tg, m => applyDrop fuel mv tg m

/-- Freshness of the ids a duplication draws from the environment: all clone
ids (root and descendants) are pairwise distinct and absent from the store. -/
def DupFresh (m : Items) (n : ItemId) (env : Nat → Nat) (t : ITree) : Prop :=
  (idsOfT (dupClone t n env)).Nodup ∧ ∀ g ∈ idsOfT (dupClone t n env), lookupJS m g = none

/-- Well-behavedness of one operation's environment samples: only duplication
draws ids that could collide; its run is covered by the hypothesis that the
subtree extracts and the drawn ids are fresh. -/
def OpFresh : Op → Items → Prop
  | .duplicate fuel id env, m =>
      match lookupJS m id, findParent m id with
      | some _, some _ =>
          match extract fuel m id with
          | some t => DupFresh m id env t
          | none => False
      | _, _ => True
  | _, _ => True

/-! ## Concrete stores: the shipped league structure and small test stores -/

/-- Leaf team item of data.ts. -/
def teamItem (nm : String) : Item :=
  { isFolder := some false, data := { name := nm, type := Category.Team } }

/-- Folder item of data.ts. -/
def folderItem (nm : String) (ty : Category) (cs : List ItemId) : Item :=
  { isFolder := some true, children := some cs, data := { name := nm, type := ty } }

/-- The initial `leagueStructure` of src/src/data.ts, in declaration order. -/
def leagueStructure : Items :=
  [ ("root", folderItem "League Structure" Category.Conference ["monday", "wednesday", "friday"]),
    ("monday", folderItem "Monday" Category.Conference ["8u", "10u", "12u", "13u"]),
    ("wednesday", folderItem "Wednesday" Category.Conference ["8u-wed", "10u-wed", "12u-wed", "13u-wed"]),
    ("friday", folderItem "Friday" Category.Conference ["8u-fri", "10u-fri", "12u-fri", "13u-fri"]),
    ("8u", folderItem "8U" Category.Division ["team-8u-1", "team-8u-2"]),
    ("10u", folderItem "10U" Category.Division []),
    ("12u", folderItem "12U" Category.Division ["team-12u-1", "team-12u-2", "team-12u-3"]),
    ("13u", folderItem "13U" Category.Division []),
    ("8u-wed", folderItem "8U" Category.Division []),
    ("10u-wed", folderItem "10U" Category.Division ["team-10u-wed-1", "team-10u-wed-2"]),
    ("12u-wed", folderItem "12U" Category.Division []),
    ("13u-wed", folderItem "13U" Category.Division ["team-13u-wed-1"]),
    ("8u-fri", folderItem "8U" Category.Division []),
    ("10u-fri", folderItem "10U" Category.Division []),
    ("12u-fri", folderItem "12U" Category.Division ["team-12u-fri-1", "team-12u-fri-2"]),
    ("13u-fri", folderItem "13U" Category.Division []),
    ("team-8u-1", teamItem "Tigers"),
    ("team-8u-2", teamItem "Lions"),
    ("team-12u-1", teamItem "Eagles"),
    ("team-12u-2", teamItem "Hawks"),
    ("team-12u-3", teamItem "Falcons"),
    ("team-10u-wed-1", teamItem "Sharks"),
    ("team-10u-wed-2", teamItem "Dolphins"),
    ("team-13u-wed-1", teamItem "Cougars"),
    ("team-12u-fri-1", teamItem "Bears"),
    ("team-12u-fri-2", teamItem "Wolves") ]

/-- Small store: root → a → b, plus a leaf name for duplication tests. -/
def sampleDup : Items :=
  [ ("root", folderItem "root" Category.Conference ["a"]),
    ("a", folderItem "a" Category.Division ["b"]),
    ("b", teamItem "b") ]

/-- Store whose key insertion order differs from the pre-order of the tree:
root's children are `[a, b]` but `b` was declared first. -/
def sampleOrder : Items :=
  [ ("root", folderItem "League" Category.Conference ["a", "b"]),
    ("b", teamItem "X1"),
    ("a", teamItem "X2") ]

/-- Store that already contains the very id a duplication of `a` at timestamp
`7` would produce. -/
def sampleClash : Items :=
  [ ("root", folderItem "root" Category.Conference ["a"]),
    ("a", teamItem "a") ]

/-! ## Basic facts about the record primitives -/

theorem lookup_map_update_other {k k' : ItemId} (v : Item) (m : Items) (h : k' ≠ k) :
    lookupJS (m.map (fun p => if p.1 = k then (k, v) else p)) k' = lookupJS m k' := by
  induction m with
  | nil => rfl
  | cons p ps ih =>
      obtain ⟨pk, pv⟩ := p
      by_cases hp : pk = k
      · have h2 : ¬ pk = k' := fun he => h (he.symm.trans hp)
        have h3 : ¬ k = k' := fun he => h he.symm
        simp [lookupJS, hp, h2, h3, ih]
      · by_cases hpk : pk = k'
        · simp [lookupJS, hp, hpk, h]
        · simp [lookupJS, hp, hpk, ih]

theorem lookup_map_update_self {k : ItemId} (v : Item) {m : Items}
    (hs : (lookupJS m k).isSome) :
    lookupJS (m.map (fun p => if p.1 = k then (k, v) else p)) k = some v := by
  induction m with
  | nil => simp [lookupJS] at hs
  | cons p ps ih =>
      rw [List.map_cons]
      by_cases hp : p.1 = k
      · rw [if_pos hp]
        show (if k = k then some v else _) = some v
        rw [if_pos rfl]
      · simp only [lookupJS, hp, if_false] at hs
        rw [if_neg hp]
        show (if p.1 = k then some p.2 else _) = some v
        rw [if_neg hp]
        exact ih hs

theorem lookup_append_other {k k' : ItemId} (v : Item) (m : Items) (h : k' ≠ k) :
    lookupJS (m ++ [(k, v)]) k' = lookupJS m k' := by
  induction m with
  | nil =>
      show (if k = k' then some v else lookupJS [] k') = none
      rw [if_neg (fun he => h he.symm)]
      rfl
  | cons p ps ih =>
      show (if p.1 = k' then some p.2 else _) = (if p.1 = k' then some p.2 else _)
      by_cases hpk : p.1 = k'
      · rw [if_pos hpk, if_pos hpk]
      · rw [if_neg hpk, if_neg hpk]; exact ih

theorem lookup_append_self {k : ItemId} (v : Item) {m : Items}
    (hn : lookupJS m k = none) :
    lookupJS (m ++ [(k, v)]) k = some v := by
  induction m with
  | nil =>
      show (if k = k then some v else _) = some v
      rw [if_pos rfl]
  | cons p ps ih =>
      by_cases hp : p.1 = k
      · simp [lookupJS, hp] at hn
      · simp only [lookupJS, hp, if_false] at hn
        show (if p.1 = k then some p.2 else _) = some v
        rw [if_neg hp]
        exact ih hn

theorem lookup_insertJS (k : ItemId) (v : Item) (m : Items) (k' : ItemId) :
    lookupJS (insertJS k v m) k' = if k' = k then some v else lookupJS m k' := by
  by_cases hk : k' = k
  · subst hk
    rw [if_pos rfl]
    unfold insertJS
    by_cases hs : (lookupJS m k').isSome
    · rw [if_pos hs]
      exact lookup_map_update_self v hs
    · rw [if_neg hs]
      have hn : lookupJS m k' = none := by
        cases h : lookupJS m k' with
        | none => rfl
        | some w => rw [h] at hs; simp at hs
      exact lookup_append_self v hn
  · rw [if_neg hk]
    unfold insertJS
    by_cases hs : (lookupJS m k).isSome
    · rw [if_pos hs]; exact lookup_map_update_other v m hk
    · rw [if_neg hs]; exact lookup_append_other v m hk

theorem lookup_removeJS_self (k : ItemId) (m : Items) :
    lookupJS (removeJS k m) k = none := by
  induction m with
  | nil => rfl
  | cons p ps ih =>
      rw [removeJS, List.filter_cons]
      by_cases hp : p.1 = k
      · rw [if_neg (by simp [hp])]
        exact ih
      · rw [if_pos (by simp [hp])]
        show (if p.1 = k then some p.2 else _) = none
        rw [if_neg hp]
        exact ih

theorem lookup_removeJS_other {k k' : ItemId} (m : Items) (h : k' ≠ k) :
    lookupJS (removeJS k m) k' = lookupJS m k' := by
  induction m with
  | nil => rfl
  | cons p ps ih =>
      rw [removeJS, List.filter_cons]
      by_cases hp : p.1 = k
      · have h2 : ¬ p.1 = k' := fun he => h (he.symm.trans hp)
        rw [if_neg (by simp [hp])]
        show _ = lookupJS (p :: ps) k'
        rw [show lookupJS (p :: ps) k' = lookupJS ps k' by
          show (if p.1 = k' then some p.2 else lookupJS ps k') = _
          rw [if_neg h2]]
        exact ih
      · rw [if_pos (by simp [hp])]
        show (if p.1 = k' then some p.2 else _) = (if p.1 = k' then some p.2 else _)
        by_cases hpk : p.1 = k'
        · rw [if_pos hpk, if_pos hpk]
        · rw [if_neg hpk, if_neg hpk]; exact ih

theorem lookup_isSome_iff (m : Items) (k : ItemId) :
    (lookupJS m k).isSome ↔ k ∈ keysOf m := by
  induction m with
  | nil => simp [lookupJS, keysOf]
  | cons p ps ih =>
      by_cases hp : p.1 = k
      · simp [lookupJS, keysOf, hp]
      · have : ¬ k = p.1 := fun he => hp he.symm
        simp [lookupJS, keysOf, hp, this, ih]

theorem lookup_mem {m : Items} {k : ItemId} {v : Item} (h : lookupJS m k = some v) :
    (k, v) ∈ m := by
  induction m with
  | nil => simp [lookupJS] at h
  | cons p ps ih =>
      obtain ⟨pk, pv⟩ := p
      by_cases hp : pk = k
      · simp only [lookupJS, hp, if_true, Option.some.injEq] at h
        subst hp; subst h
        exact List.mem_cons_self _ _
      · simp only [lookupJS, hp, if_false] at h
        exact List.mem_cons_of_mem _ (ih h)

theorem keysOf_insertJS (k : ItemId) (v : Item) (m : Items) :
    keysOf (insertJS k v m) =
      if (lookupJS m k).isSome then keysOf m else keysOf m ++ [k] := by
  unfold insertJS
  by_cases hs : (lookupJS m k).isSome
  · rw [if_pos hs, if_pos hs]
    simp only [keysOf, List.map_map]
    refine List.map_congr_left ?_
    intro p _
    by_cases hp : p.1 = k <;> simp [hp, Function.comp]
  · rw [if_neg hs, if_neg hs]
    simp [keysOf]

theorem nodupKeys_insertJS (k : ItemId) (v : Item) (m : Items)
    (h : (keysOf m).Nodup) : (keysOf (insertJS k v m)).Nodup := by
  by_cases hs : (lookupJS m k).isSome
  · rw [keysOf_insertJS, if_pos hs]; exact h
  · have hk : k ∉ keysOf m := fun hm => hs ((lookup_isSome_iff m k).mpr hm)
    rw [keysOf_insertJS, if_neg hs, List.nodup_append]
    refine ⟨h, List.nodup_singleton k, ?_⟩
    intro a ha hmem
    rw [List.mem_singleton] at hmem
    exact hk (hmem ▸ ha)

/-! ## Splice facts -/

theorem findIdx_append_self {l1 l2 : List ItemId} {target : ItemId}
    (h : target ∉ l1) :
    (l1 ++ target :: l2).findIdx? (fun a => decide (a = target)) = some l1.length := by
  induction l1 with
  | nil => simp [List.findIdx?]
  | cons a l ih =>
      have ha : ¬ a = target := fun he => h (he ▸ List.mem_cons_self a l)
      have h' : target ∉ l := fun hm => h (List.mem_cons_of_mem a hm)
      simp [List.findIdx?_cons, ha, List.findIdx?_succ, ih h']

theorem insertAt_succ_append (l1 l2 : List ItemId) (x target : ItemId) :
    insertAt (l1.length + 1) x (l1 ++ target :: l2) = l1 ++ target :: x :: l2 := by
  induction l1 with
  | nil => simp [insertAt]
  | cons a l ih => simpa [insertAt] using ih

theorem jsSpliceAfter_spec {l1 l2 : List ItemId} {x target : ItemId}
    (h : target ∉ l1) :
    jsSpliceAfter x target (l1 ++ target :: l2) = l1 ++ target :: x :: l2 := by
  unfold jsSpliceAfter
  rw [findIdx_append_self h]
  exact insertAt_succ_append l1 l2 x target

/-! ## Extraction facts -/

theorem idsOfT_eq (t : ITree) : idsOfT t = rootIdT t :: kidsIdsOf t := by
  cases t; rfl

theorem copyTree_rootId (t : ITree) (nid : ItemId) (env : Nat → Nat) (σ : Nat) :
    rootIdT (copyTree t nid env σ).1 = nid := by
  cases t; rfl

theorem extract_lookup {fuel : Nat} {m : Items} {oid : ItemId} {t : ITree}
    (h : extract fuel m oid = some t) : ∃ it, lookupJS m oid = some it := by
  cases fuel with
  | zero => simp [extract] at h
  | succ f =>
      cases hl : lookupJS m oid with
      | none => simp [extract, hl] at h
      | some it => exact ⟨it, rfl⟩

theorem extract_rootId {fuel : Nat} {m : Items} {oid : ItemId} {t : ITree}
    (h : extract fuel m oid = some t) : rootIdT t = oid := by
  cases fuel with
  | zero => simp [extract] at h
  | succ f =>
      cases hl : lookupJS m oid with
      | none => simp [extract, hl] at h
      | some it =>
          simp only [extract, hl] at h
          cases hk : extractKidsAux (extract f m) (it.children.getD []) with
          | none => simp [hk] at h
          | some ts =>
              simp only [hk, Option.some.injEq] at h
              rw [← h]; rfl

theorem extract_ids (fuel : Nat) :
    (∀ m oid t, extract fuel m oid = some t →
      ∀ i ∈ idsOfT t, (lookupJS m i).isSome)
    ∧ (∀ m cs ts, extractKidsAux (extract fuel m) cs = some ts →
      ∀ i ∈ idsOfL ts, (lookupJS m i).isSome) := by
  induction fuel with
  | zero =>
      constructor
      · intro m oid t h; simp [extract] at h
      · intro m cs ts h
        cases cs with
        | nil =>
            simp only [extractKidsAux, Option.some.injEq] at h
            subst h; intro i hi; simp [idsOfL] at hi
        | cons c cs' => simp [extractKidsAux, extract] at h
  | succ f ih =>
      have hnode : ∀ m oid t, extract (f + 1) m oid = some t →
          ∀ i ∈ idsOfT t, (lookupJS m i).isSome := by
        intro m oid t h i hi
        cases hl : lookupJS m oid with
        | none => simp [extract, hl] at h
        | some it =>
            simp only [extract, hl] at h
            cases hk : extractKidsAux (extract f m) (it.children.getD []) with
            | none => simp [hk] at h
            | some ts =>
                simp only [hk, Option.some.injEq] at h
                subst h
                simp only [idsOfT, List.mem_cons] at hi
                rcases hi with rfl | hi
                · simp [hl]
                · exact ih.2 m _ ts hk i hi
      refine ⟨hnode, ?_⟩
      intro m cs
      induction cs with
      | nil =>
          intro ts h
          simp only [extractKidsAux, Option.some.injEq] at h
          subst h; intro i hi; simp [idsOfL] at hi
      | cons c cs' ihc =>
          intro ts h
          simp only [extractKidsAux] at h
          cases h1 : extract (f + 1) m c with
          | none => rw [h1] at h; simp at h
          | some t0 =>
              rw [h1] at h
              cases h2 : extractKidsAux (extract (f + 1) m) cs' with
              | none => rw [h2] at h; simp at h
              | some ts' =>
                  rw [h2] at h
                  simp only [Option.some.injEq] at h
                  subst h
                  intro i hi
                  simp only [idsOfL, List.mem_append] at hi
                  rcases hi with hi | hi
                  · exact hnode m c t0 h1 i hi
                  · exact ihc ts' h2 i hi

theorem extract_stable (fuel : Nat) :
    (∀ m m' oid t, extract fuel m oid = some t →
      (∀ i ∈ idsOfT t, lookupJS m' i = lookupJS m i) → extract fuel m' oid = some t)
    ∧ (∀ m m' cs ts, extractKidsAux (extract fuel m) cs = some ts →
      (∀ i ∈ idsOfL ts, lookupJS m' i = lookupJS m i) →
      extractKidsAux (extract fuel m') cs = some ts) := by
  induction fuel with
  | zero =>
      constructor
      · intro m m' oid t h; simp [extract] at h
      · intro m m' cs ts h hag
        cases cs with
        | nil => exact h
        | cons c cs' => simp [extractKidsAux, extract] at h
  | succ f ih =>
      have hnode : ∀ m m' oid t, extract (f + 1) m oid = some t →
          (∀ i ∈ idsOfT t, lookupJS m' i = lookupJS m i) → extract (f + 1) m' oid = some t := by
        intro m m' oid t h hag
        cases hl : lookupJS m oid with
        | none => simp [extract, hl] at h
        | some it =>
            simp only [extract, hl] at h
            cases hk : extractKidsAux (extract f m) (it.children.getD []) with
            | none => simp [hk] at h
            | some ts =>
                simp only [hk, Option.some.injEq] at h
                subst h
                have hroot : lookupJS m' oid = some it := by
                  rw [hag oid (by simp [idsOfT]), hl]
                have hkids : extractKidsAux (extract f m') (it.children.getD []) = some ts :=
                  ih.2 m m' _ ts hk (fun i hi => hag i (by simp [idsOfT, hi]))
                simp [extract, hroot, hkids]
      refine ⟨hnode, ?_⟩
      intro m m' cs
      induction cs with
      | nil => intro ts h _; exact h
      | cons c cs' ihc =>
          intro ts h hag
          simp only [extractKidsAux] at h ⊢
          cases h1 : extract (f + 1) m c with
          | none => rw [h1] at h; simp at h
          | some t0 =>
              rw [h1] at h
              cases h2 : extractKidsAux (extract (f + 1) m) cs' with
              | none => rw [h2] at h; simp at h
              | some ts' =>
                  rw [h2] at h
                  simp only [Option.some.injEq] at h
                  subst h
                  have e1 : extract (f + 1) m' c = some t0 :=
                    hnode m m' c t0 h1 (fun i hi => hag i (by simp [idsOfL, hi]))
                  have e2 : extractKidsAux (extract (f + 1) m') cs' = some ts' :=
                    ihc ts' h2 (fun i hi => hag i (by simp [idsOfL, hi]))
                  rw [e1, e2]

theorem extract_eval {f : Nat} {m : Items} {oid : ItemId} {it : Item} {ts : List ITree}
    (hl : lookupJS m oid = some it)
    (hk : extractKidsAux (extract f m) (it.children.getD []) = some ts) :
    extract (f + 1) m oid = some (.node oid it.data.name it.data.type ts) := by
  simp [extract, hl, hk]

/-! ## The deep-copy master specification -/

/-- What one `deepCopyItem` call does, relative to the extracted subtree `t`
of the original and its mirror clone `copyTree t newId env σ`: the σ-threading
agrees, only descendant-clone keys are touched, every stored clone has its
capability flags reset, unique keys stay unique, and after the caller stores
the returned clone root the clone extracts exactly as the mirror says. -/
def NodeCopySpec (fuel : Nat) : Prop :=
  ∀ m oid item newId env σ t ni m' σ' ct σc,
    extract fuel m oid = some t →
    lookupJS m oid = some item →
    copyTree t newId env σ = (ct, σc) →
    (∀ g ∈ idsOfT ct, lookupJS m g = none) →
    (idsOfT ct).Nodup →
    deepCopyItem fuel item newId m env σ = (ni, m', σ') →
    σ' = σc
    ∧ (∀ k, k ∉ kidsIdsOf ct → lookupJS m' k = lookupJS m k)
    ∧ (∀ k ∈ kidsIdsOf ct,
        ∃ it, lookupJS m' k = some it ∧ it.canMove = some true ∧ it.canRename = some true)
    ∧ ((keysOf m).Nodup → (keysOf m').Nodup)
    ∧ extract fuel (insertJS newId ni m') newId = some ct

/-- The corresponding statement for the child loop. -/
def ListCopySpec (fuel : Nat) : Prop :=
  ∀ cs pId m env σ ts kidIds m' σ' cks σc,
    extractKidsAux (extract fuel m) cs = some ts →
    copyKids ts pId env σ = (cks, σc) →
    (∀ g ∈ idsOfL cks, lookupJS m g = none) →
    (idsOfL cks).Nodup →
    copyChildrenAux (fun ci ncid mi σi => deepCopyItem fuel ci ncid mi env σi)
      cs pId m env σ = (kidIds, m', σ') →
    σ' = σc
    ∧ kidIds = cks.map rootIdT
    ∧ (∀ k, k ∉ idsOfL cks → lookupJS m' k = lookupJS m k)
    ∧ (∀ k ∈ idsOfL cks,
        ∃ it, lookupJS m' k = some it ∧ it.canMove = some true ∧ it.canRename = some true)
    ∧ ((keysOf m).Nodup → (keysOf m').Nodup)
    ∧ extractKidsAux (extract fuel m') (cks.map rootIdT) = some cks

theorem deepCopyItem_flags (fuel : Nat) (item : Item) (newId : ItemId) (m : Items)
    (env : Nat → Nat) (σ : Nat) :
    (deepCopyItem fuel item newId m env σ).1.canMove = some true
    ∧ (deepCopyItem fuel item newId m env σ).1.canRename = some true := by
  cases fuel with
  | zero => exact ⟨rfl, rfl⟩
  | succ f =>
      cases hc : item.children with
      | none => simp [deepCopyItem, hc, baseCopy]
      | some l =>
          by_cases he : l.isEmpty <;> simp [deepCopyItem, hc, he, baseCopy]

theorem copyChildren_master (fuel : Nat) (ihn : NodeCopySpec fuel) : ListCopySpec fuel := by
  unfold ListCopySpec
  intro cs
  induction cs with
  | nil =>
      intro pId m env σ ts kidIds m' σ' cks σc hex hck hfr hnd hcode
      simp only [extractKidsAux, Option.some.injEq] at hex
      subst hex
      simp only [copyKids, Prod.mk.injEq] at hck
      obtain ⟨hcks, hσc⟩ := hck
      subst hcks; subst hσc
      simp only [copyChildrenAux, Prod.mk.injEq] at hcode
      obtain ⟨hk1, hm1, hs1⟩ := hcode
      subst hk1; subst hm1; subst hs1
      refine ⟨rfl, rfl, fun k _ => rfl, ?_, fun h => h, rfl⟩
      intro k hk; simp [idsOfL] at hk
  | cons c cs' ihc =>
      intro pId m env σ ts kidIds m' σ' cks σc hex hck hfr hnd hcode
      -- invert the extraction of c :: cs'
      simp only [extractKidsAux] at hex
      cases h1 : extract fuel m c with
      | none => rw [h1] at hex; simp at hex
      | some t0 =>
      rw [h1] at hex
      cases h2 : extractKidsAux (extract fuel m) cs' with
      | none => rw [h2] at hex; simp at hex
      | some ts' =>
      rw [h2] at hex
      simp only [Option.some.injEq] at hex
      subst hex
      -- invert the mirror
      have hrid : rootIdT t0 = c := extract_rootId h1
      simp only [copyKids, hrid] at hck
      cases hr1 : copyTree t0 (cloneChildId pId c (env σ)) env (σ + 1) with
      | mk ct0 σ1 =>
      rw [hr1] at hck
      cases hr2 : copyKids ts' pId env σ1 with
      | mk cks' σ2 =>
      rw [hr2] at hck
      simp only [Prod.mk.injEq] at hck
      obtain ⟨hcks, hσc⟩ := hck
      subst hcks; subst hσc
      -- clone-id bookkeeping
      have hids : idsOfL (ct0 :: cks') = idsOfT ct0 ++ idsOfL cks' := rfl
      rw [hids] at hfr hnd
      have hnd3 := List.nodup_append.mp hnd
      have hdisj : ∀ x ∈ idsOfT ct0, x ∉ idsOfL cks' := fun x hx => hnd3.2.2 hx
      have hncid : rootIdT ct0 = cloneChildId pId c (env σ) := by
        have := copyTree_rootId t0 (cloneChildId pId c (env σ)) env (σ + 1)
        rw [hr1] at this; exact this
      have hncid_mem : cloneChildId pId c (env σ) ∈ idsOfT ct0 := by
        rw [idsOfT_eq ct0, hncid]; exact List.mem_cons_self _ _
      have hct0_ids : idsOfT ct0 = cloneChildId pId c (env σ) :: kidsIdsOf ct0 := by
        rw [idsOfT_eq ct0, hncid]
      have hncid_not_kids : cloneChildId pId c (env σ) ∉ kidsIdsOf ct0 := by
        have := hnd3.1
        rw [hct0_ids] at this
        exact (List.nodup_cons.mp this).1
      have hkids_sub : ∀ x ∈ kidsIdsOf ct0, x ∈ idsOfT ct0 := by
        intro x hx; rw [hct0_ids]; exact List.mem_cons_of_mem _ hx
      -- invert the code
      obtain ⟨childIt, hlkc⟩ := extract_lookup h1
      simp only [copyChildrenAux, hlkc] at hcode
      cases hdc : deepCopyItem fuel childIt (cloneChildId pId c (env σ)) m env (σ + 1) with
      | mk ni rA =>
      cases hrA : rA with
      | mk mA σA =>
      rw [hrA] at hdc
      rw [hdc] at hcode
      -- node-level conclusions for the head clone
      have hn := ihn m c childIt (cloneChildId pId c (env σ)) env (σ + 1) t0 ni mA σA ct0 σ1
        h1 hlkc hr1 (fun g hg => hfr g (List.mem_append_left _ hg)) hnd3.1 hdc
      obtain ⟨hσA, hA_untouched, hA_ins, hA_nodup, hA_ext⟩ := hn
      rw [← hσA] at hr2
      -- the record after storing the head clone
      cases hrest : copyChildrenAux (fun ci ncid mi σi => deepCopyItem fuel ci ncid mi env σi)
          cs' pId (insertJS (cloneChildId pId c (env σ)) ni mA) env σA with
      | mk kidIds' rB =>
      cases hrB : rB with
      | mk mB σB =>
      rw [hrB] at hrest
      rw [hrest] at hcode
      simp only [Prod.mk.injEq] at hcode
      obtain ⟨hkid, hm', hσ'⟩ := hcode
      subst hkid; subst hm'; subst hσ'
      have hm2ncid : lookupJS (insertJS (cloneChildId pId c (env σ)) ni mA) (cloneChildId pId c (env σ)) = some ni := by
        rw [lookup_insertJS]; simp
      have hm2other : ∀ k, k ≠ cloneChildId pId c (env σ) →
          lookupJS (insertJS (cloneChildId pId c (env σ)) ni mA) k = lookupJS mA k := by
        intro k hk; rw [lookup_insertJS, if_neg hk]
      -- freshness facts transported to the post-head record
      have horig_keep : ∀ i, (lookupJS m i).isSome →
          lookupJS (insertJS (cloneChildId pId c (env σ)) ni mA) i = lookupJS m i := by
        intro i hi
        have hi_ncid : i ≠ cloneChildId pId c (env σ) := by
          intro he
          rw [he] at hi
          rw [hfr _ (List.mem_append_left _ hncid_mem)] at hi
          simp at hi
        have hi_kids : i ∉ kidsIdsOf ct0 := by
          intro hk
          have := hfr i (List.mem_append_left _ (hkids_sub i hk))
          rw [this] at hi; simp at hi
        rw [hm2other i hi_ncid, hA_untouched i hi_kids]
      -- list-level conclusions for the tail clones
      have hexRest : extractKidsAux (extract fuel (insertJS (cloneChildId pId c (env σ)) ni mA)) cs' = some ts' := by
        refine (extract_stable fuel).2 m _ cs' ts' h2 ?_
        intro i hi
        exact horig_keep i ((extract_ids fuel).2 m cs' ts' h2 i hi)
      have hfrRest : ∀ g ∈ idsOfL cks',
          lookupJS (insertJS (cloneChildId pId c (env σ)) ni mA) g = none := by
        intro g hg
        have hg_ncid : g ≠ cloneChildId pId c (env σ) := by
          intro he; exact hdisj _ hncid_mem (he ▸ hg)
        have hg_kids : g ∉ kidsIdsOf ct0 := by
          intro hk; exact hdisj _ (hkids_sub g hk) hg
        rw [hm2other g hg_ncid, hA_untouched g hg_kids]
        exact hfr g (List.mem_append_right _ hg)
      have hr := ihc pId (insertJS (cloneChildId pId c (env σ)) ni mA) env σA ts' kidIds' mB σB cks' σ2
        hexRest hr2 hfrRest hnd3.2.1 hrest
      obtain ⟨hσB, hkidIds', hB_untouched, hB_ins, hB_nodup, hB_ext⟩ := hr
      subst hσB
      -- assemble
      refine ⟨rfl, ?_, ?_, ?_, ?_, ?_⟩
      · rw [hkidIds', List.map_cons, hncid]
      · -- untouched keys
        intro k hk
        rw [hids] at hk
        simp only [List.mem_append] at hk
        push_neg at hk
        have hk_ncid : k ≠ cloneChildId pId c (env σ) := by
          intro he; exact hk.1 (he ▸ hncid_mem)
        have hk_kids : k ∉ kidsIdsOf ct0 := fun hkk => hk.1 (hkids_sub k hkk)
        rw [hB_untouched k hk.2, hm2other k hk_ncid, hA_untouched k hk_kids]
      · -- every clone id is stored with reset flags
        intro k hk
        rw [hids] at hk
        simp only [List.mem_append] at hk
        rcases hk with hk | hk
        · rw [hct0_ids] at hk
          rcases List.mem_cons.mp hk with rfl | hk
          · refine ⟨ni, ?_, ?_, ?_⟩
            · rw [hB_untouched _ (hdisj _ hncid_mem), hm2ncid]
            · have := (deepCopyItem_flags fuel childIt (cloneChildId pId c (env σ)) m env (σ + 1)).1
              rw [hdc] at this; exact this
            · have := (deepCopyItem_flags fuel childIt (cloneChildId pId c (env σ)) m env (σ + 1)).2
              rw [hdc] at this; exact this
          · obtain ⟨it, hit, hmv, hrn⟩ := hA_ins k hk
            refine ⟨it, ?_, hmv, hrn⟩
            have hk_ncid : k ≠ cloneChildId pId c (env σ) := by
              intro he; subst he; exact hncid_not_kids hk
            rw [hB_untouched k (hdisj _ (hkids_sub k hk)), hm2other k hk_ncid, hit]
        · exact hB_ins k hk
      · -- unique keys stay unique
        intro hnk
        exact hB_nodup (nodupKeys_insertJS _ _ _ (hA_nodup hnk))
      · -- the stored clones extract as the mirror clones
        have hhead : extract fuel mB (cloneChildId pId c (env σ)) = some ct0 := by
          refine (extract_stable fuel).1 _ _ _ _ hA_ext ?_
          intro i hi
          exact hB_untouched i (hdisj i hi)
        rw [List.map_cons, hncid]
        simp only [extractKidsAux, hhead, hB_ext]

theorem deepCopy_master (fuel : Nat) : NodeCopySpec fuel := by
  induction fuel with
  | zero =>
      unfold NodeCopySpec
      intro m oid item newId env σ t ni m' σ' ct σc hex
      simp [extract] at hex
  | succ f ih =>
      have hlist := copyChildren_master f ih
      unfold NodeCopySpec
      intro m oid item newId env σ t ni m' σ' ct σc hex hlk hct hfr hnd hcode
      simp only [extract, hlk] at hex
      cases hk : extractKidsAux (extract f m) (item.children.getD []) with
      | none => rw [hk] at hex; simp at hex
      | some ts =>
      rw [hk] at hex
      simp only [Option.some.injEq] at hex
      subst hex
      simp only [copyTree] at hct
      cases hck : copyKids ts newId env σ with
      | mk cks σk =>
      rw [hck] at hct
      simp only [Prod.mk.injEq] at hct
      obtain ⟨hctv, hσc⟩ := hct
      subst hσc
      have hct_ids : idsOfT ct = newId :: idsOfL cks := by
        rw [← hctv]; rfl
      have hct_kids : kidsIdsOf ct = idsOfL cks := by
        rw [← hctv]; rfl
      have hfr' : ∀ g ∈ idsOfL cks, lookupJS m g = none := by
        intro g hg; exact hfr g (by rw [hct_ids]; exact List.mem_cons_of_mem _ hg)
      have hnd' : (idsOfL cks).Nodup := by
        have := hnd; rw [hct_ids] at this; exact (List.nodup_cons.mp this).2
      have hnewId_not : newId ∉ idsOfL cks := by
        have := hnd; rw [hct_ids] at this; exact (List.nodup_cons.mp this).1
      cases hc : item.children with
      | none =>
          rw [hc] at hk
          simp only [Option.getD_none, extractKidsAux, Option.some.injEq] at hk
          subst hk
          simp only [copyKids, Prod.mk.injEq] at hck
          obtain ⟨hcks, hσk⟩ := hck
          subst hcks; subst hσk
          simp only [deepCopyItem, hc, Prod.mk.injEq] at hcode
          obtain ⟨hni, hm', hσ'⟩ := hcode
          subst hni; subst hm'; subst hσ'
          refine ⟨rfl, fun k _ => rfl, ?_, fun h => h, ?_⟩
          · intro k hkk; rw [hct_kids] at hkk; simp [idsOfL] at hkk
          · have hkey : lookupJS (insertJS newId (baseCopy item) m) newId = some (baseCopy item) := by
              rw [lookup_insertJS]; simp
            have hnil : extractKidsAux (extract f (insertJS newId (baseCopy item) m))
                ((baseCopy item).children.getD []) = some [] := rfl
            rw [extract_eval hkey hnil, ← hctv]
            exact rfl
      | some l =>
          by_cases he : l.isEmpty
          · rw [List.isEmpty_iff] at he
            subst he
            rw [hc] at hk
            simp only [Option.getD_some, extractKidsAux, Option.some.injEq] at hk
            subst hk
            simp only [copyKids, Prod.mk.injEq] at hck
            obtain ⟨hcks, hσk⟩ := hck
            subst hcks; subst hσk
            simp only [deepCopyItem, hc, List.isEmpty_nil, if_true, Prod.mk.injEq] at hcode
            obtain ⟨hni, hm', hσ'⟩ := hcode
            subst hni; subst hm'; subst hσ'
            refine ⟨rfl, fun k _ => rfl, ?_, fun h => h, ?_⟩
            · intro k hkk; rw [hct_kids] at hkk; simp [idsOfL] at hkk
            · have hkey : lookupJS (insertJS newId (baseCopy item) m) newId = some (baseCopy item) := by
                rw [lookup_insertJS]; simp
              have hnil : extractKidsAux (extract f (insertJS newId (baseCopy item) m))
                  ((baseCopy item).children.getD []) = some [] := rfl
              rw [extract_eval hkey hnil, ← hctv]
              exact rfl
          · rw [hc] at hk
            simp only [Option.getD_some] at hk
            simp only [deepCopyItem, hc, he, Bool.false_eq_true, if_false] at hcode
            cases hcc : copyChildrenAux (fun ci ncid mi σi => deepCopyItem f ci ncid mi env σi)
                l newId m env σ with
            | mk kidIds rA =>
            cases hrA : rA with
            | mk mA σA =>
            rw [hrA] at hcc
            rw [hcc] at hcode
            simp only [Prod.mk.injEq] at hcode
            obtain ⟨hni, hm', hσ'⟩ := hcode
            subst hni; subst hm'; subst hσ'
            have hl := hlist l newId m env σ ts kidIds mA σA cks σk hk hck hfr' hnd' hcc
            obtain ⟨hσA, hkid, hA_untouched, hA_ins, hA_nodup, hA_ext⟩ := hl
            subst hσA
            subst hkid
            refine ⟨rfl, ?_, ?_, hA_nodup, ?_⟩
            · intro k hkk; rw [hct_kids] at hkk; exact hA_untouched k hkk
            · intro k hkk; rw [hct_kids] at hkk; exact hA_ins k hkk
            · have hkey : lookupJS (insertJS newId { baseCopy item with children := some (cks.map rootIdT) } mA) newId
                  = some { baseCopy item with children := some (cks.map rootIdT) } := by
                rw [lookup_insertJS]; simp
              have hkidsext : extractKidsAux
                  (extract f (insertJS newId { baseCopy item with children := some (cks.map rootIdT) } mA))
                  (cks.map rootIdT) = some cks := by
                refine (extract_stable f).2 mA _ _ cks hA_ext ?_
                intro i hi
                have hine : i ≠ newId := by
                  intro he2
                  exact hnewId_not (he2 ▸ hi)
                rw [lookup_insertJS, if_neg hine]
              have harg : ({ baseCopy item with children := some (cks.map rootIdT) } : Item).children.getD []
                  = cks.map rootIdT := rfl
              have hext := extract_eval hkey (by rw [harg]; exact hkidsext)
              rw [hext, ← hctv]
              exact rfl

/-! ## The duplicate run, end to end -/

theorem findParent_isSome {m : Items} {c p : ItemId} (h : findParent m c = some p) :
    (lookupJS m p).isSome := by
  unfold findParent at h
  cases hf : m.find? (fun q => (q.2.children.getD []).contains c) with
  | none => rw [hf] at h; simp at h
  | some pr =>
      rw [hf] at h
      simp only [Option.map_some', Option.some.injEq] at h
      subst h
      rw [lookup_isSome_iff]
      exact List.mem_map_of_mem Prod.fst (List.mem_of_find?_eq_some hf)

theorem findParent_children {m : Items} {c p : ItemId} (h : findParent m c = some p) :
    ∃ pr ∈ m, pr.1 = p ∧ c ∈ pr.2.children.getD [] := by
  unfold findParent at h
  cases hf : m.find? (fun q => (q.2.children.getD []).contains c) with
  | none => rw [hf] at h; simp at h
  | some pr =>
      rw [hf] at h
      simp only [Option.map_some', Option.some.injEq] at h
      subst h
      refine ⟨pr, List.mem_of_find?_eq_some hf, rfl, ?_⟩
      have := List.find?_some hf
      simpa using this

theorem dup_core (fuel : Nat) (m : Items) (n : ItemId) (env : Nat → Nat)
    (orig : Item) (p : ItemId) (t : ITree)
    (hlk : lookupJS m n = some orig)
    (hpar : findParent m n = some p)
    (hex : extract fuel m n = some t)
    (hfr : DupFresh m n env t) :
    (∀ k, k ∉ idsOfT (dupClone t n env) → k ≠ p →
       lookupJS (handleDuplicate fuel n env m) k = lookupJS m k)
    ∧ extract fuel (handleDuplicate fuel n env m) (dupNewId n env) = some (dupClone t n env)
    ∧ (∀ k ∈ idsOfT (dupClone t n env), ∃ it,
         lookupJS (handleDuplicate fuel n env m) k = some it
           ∧ it.canMove = some true ∧ it.canRename = some true)
    ∧ (∀ k, (lookupJS (handleDuplicate fuel n env m) k).isSome ↔
         ((lookupJS m k).isSome ∨ k ∈ idsOfT (dupClone t n env)))
    ∧ ((keysOf m).Nodup → (keysOf (handleDuplicate fuel n env m)).Nodup)
    ∧ (∀ i ∈ idsOfT (dupClone t n env), i ∉ idsOfT t)
    ∧ (p ∉ idsOfT t → extract fuel (handleDuplicate fuel n env m) n = some t)
    ∧ (∀ pe1, lookupJS m p = some pe1 → ∃ pe2, lookupJS (handleDuplicate fuel n env m) p = some pe2
         ∧ (pe2.children = none ↔ pe1.children = none))
    ∧ (∀ pe l1 l2, lookupJS m p = some pe → pe.children = some (l1 ++ n :: l2) → n ∉ l1 →
         lookupJS (handleDuplicate fuel n env m) p =
           some { pe with children := some (l1 ++ n :: dupNewId n env :: l2) }) := by
  obtain ⟨hnd, hfrsh⟩ := hfr
  unfold dupClone at *
  cases hct : copyTree t (dupNewId n env) env 1 with
  | mk ct0 σc =>
  rw [hct] at hnd hfrsh
  dsimp only at hnd hfrsh ⊢
  have hroot : rootIdT ct0 = dupNewId n env := by
    have := copyTree_rootId t (dupNewId n env) env 1
    rw [hct] at this; exact this
  have hct_ids : idsOfT ct0 = dupNewId n env :: kidsIdsOf ct0 := by
    rw [idsOfT_eq ct0, hroot]
  have hnew_mem : dupNewId n env ∈ idsOfT ct0 := by
    rw [hct_ids]; exact List.mem_cons_self _ _
  have hkids_sub : ∀ x ∈ kidsIdsOf ct0, x ∈ idsOfT ct0 := by
    intro x hx; rw [hct_ids]; exact List.mem_cons_of_mem _ hx
  have hnew_not_kids : dupNewId n env ∉ kidsIdsOf ct0 := by
    have := hnd; rw [hct_ids] at this; exact (List.nodup_cons.mp this).1
  cases hdc : deepCopyItem fuel orig (dupNewId n env) m env 1 with
  | mk ni rA =>
  cases hrA : rA with
  | mk mA σA =>
  rw [hrA] at hdc
  have hmaster := deepCopy_master fuel m n orig (dupNewId n env) env 1 t ni mA σA ct0 σc
    hex hlk hct hfrsh hnd hdc
  obtain ⟨hσ, hA_untouched, hA_ins, hA_nodup, hA_ext⟩ := hmaster
  -- the parent's entry is never a clone id
  have hpS := findParent_isSome hpar
  obtain ⟨pe0, hpe0⟩ : ∃ pe0, lookupJS m p = some pe0 := by
    cases hq : lookupJS m p with
    | none => rw [hq] at hpS; simp at hpS
    | some q => exact ⟨q, rfl⟩
  have hp_fresh : p ∉ idsOfT ct0 := by
    intro hp
    rw [hfrsh p hp] at hpe0; simp at hpe0
  have hp_new : p ≠ dupNewId n env := fun he => hp_fresh (he ▸ hnew_mem)
  have hp_kids : p ∉ kidsIdsOf ct0 := fun hk => hp_fresh (hkids_sub p hk)
  -- the record after the clone root is stored
  have hm2p : lookupJS (insertJS (dupNewId n env) ni mA) p = some pe0 := by
    rw [lookup_insertJS, if_neg hp_new, hA_untouched p hp_kids, hpe0]
  have hm2new : lookupJS (insertJS (dupNewId n env) ni mA) (dupNewId n env) = some ni := by
    rw [lookup_insertJS]; simp
  have hm2other : ∀ k, k ≠ dupNewId n env →
      lookupJS (insertJS (dupNewId n env) ni mA) k = lookupJS mA k := by
    intro k hk; rw [lookup_insertJS, if_neg hk]
  -- the final record, by cases on the parent's children field
  have hpost : handleDuplicate fuel n env m =
      (match pe0.children with
       | none => insertJS (dupNewId n env) ni mA
       | some l => insertJS p { pe0 with children := some (jsSpliceAfter (dupNewId n env) n l) }
           (insertJS (dupNewId n env) ni mA)) := by
    simp only [handleDuplicate, hlk, hpar, hdc, hm2p]
  have hflags : ni.canMove = some true ∧ ni.canRename = some true := by
    have := deepCopyItem_flags fuel orig (dupNewId n env) m env 1
    rw [hdc] at this; exact this
  -- post differs from the stored-clone record only at p
  have hpost_other : ∀ k, k ≠ p →
      lookupJS (handleDuplicate fuel n env m) k = lookupJS (insertJS (dupNewId n env) ni mA) k := by
    intro k hk
    rw [hpost]
    cases pe0.children with
    | none => rfl
    | some l => rw [lookup_insertJS, if_neg hk]
  have hpost_p_isSome : (lookupJS (handleDuplicate fuel n env m) p).isSome := by
    rw [hpost]
    cases pe0.children with
    | none => rw [hm2p]; rfl
    | some l => rw [lookup_insertJS]; simp
  have huntouched : ∀ k, k ∉ idsOfT ct0 → k ≠ p →
      lookupJS (handleDuplicate fuel n env m) k = lookupJS m k := by
    intro k hk hkp
    have hknew : k ≠ dupNewId n env := fun he => hk (he ▸ hnew_mem)
    have hkkids : k ∉ kidsIdsOf ct0 := fun hkk => hk (hkids_sub k hkk)
    rw [hpost_other k hkp, hm2other k hknew, hA_untouched k hkkids]
  have hdisj : ∀ i ∈ idsOfT ct0, i ∉ idsOfT t := by
    intro i hi hit
    have := (extract_ids fuel).1 m n t hex i hit
    rw [hfrsh i hi] at this; simp at this
  have hcloneflags : ∀ k ∈ idsOfT ct0, ∃ it,
      lookupJS (handleDuplicate fuel n env m) k = some it
        ∧ it.canMove = some true ∧ it.canRename = some true := by
    intro k hk
    have hkp : k ≠ p := fun he => hp_fresh (he ▸ hk)
    rw [hct_ids] at hk
    rcases List.mem_cons.mp hk with rfl | hk
    · exact ⟨ni, by rw [hpost_other _ hkp, hm2new], hflags.1, hflags.2⟩
    · obtain ⟨it, hit, h1, h2⟩ := hA_ins k hk
      have hknew : k ≠ dupNewId n env := fun he => hnew_not_kids (he ▸ hk)
      exact ⟨it, by rw [hpost_other _ hkp, hm2other k hknew, hit], h1, h2⟩
  have hext_clone : extract fuel (handleDuplicate fuel n env m) (dupNewId n env) = some ct0 := by
    refine (extract_stable fuel).1 _ _ _ _ hA_ext ?_
    intro i hi
    have hip : i ≠ p := fun he => hp_fresh (he ▸ hi)
    rw [hpost_other i hip]
  refine ⟨huntouched, hext_clone, hcloneflags, ?_, ?_, hdisj, ?_, ?_, ?_⟩
  · -- key membership
    intro k
    by_cases hkp : k = p
    · subst hkp
      constructor
      · intro _; left; rw [hpe0]; rfl
      · intro _; exact hpost_p_isSome
    · rw [hpost_other k hkp]
      by_cases hknew : k = dupNewId n env
      · subst hknew
        rw [hm2new]
        constructor
        · intro _; right; exact hnew_mem
        · intro _; rfl
      · rw [hm2other k hknew]
        by_cases hkkids : k ∈ kidsIdsOf ct0
        · obtain ⟨it, hit, _, _⟩ := hA_ins k hkkids
          rw [hit]
          constructor
          · intro _; right; exact hkids_sub k hkkids
          · intro _; rfl
        · rw [hA_untouched k hkkids]
          constructor
          · intro h; left; exact h
          · intro h
            rcases h with h | h
            · exact h
            · rw [hct_ids] at h
              rcases List.mem_cons.mp h with rfl | h
              · exact absurd rfl hknew
              · exact absurd h hkkids
  · -- unique keys stay unique
    intro hk
    rw [hpost]
    cases pe0.children with
    | none => exact nodupKeys_insertJS _ _ _ (hA_nodup hk)
    | some l => exact nodupKeys_insertJS _ _ _ (nodupKeys_insertJS _ _ _ (hA_nodup hk))
  · -- the original subtree is untouched
    intro hpt
    refine (extract_stable fuel).1 _ _ _ _ hex ?_
    intro i hi
    have hip : i ≠ p := fun he => hpt (he ▸ hi)
    have hiC : i ∉ idsOfT ct0 := fun hiC => hdisj i hiC hi
    exact huntouched i hiC hip
  · -- the parent keeps a children field of the same presence
    intro pe1 hpe1
    have he : pe1 = pe0 := by
      rw [hpe0] at hpe1
      exact (Option.some.inj hpe1).symm
    subst he
    rw [hpost]
    cases hch : pe1.children with
    | none => exact ⟨pe1, by dsimp only; rw [hm2p], by simp [hch]⟩
    | some l =>
        refine ⟨{ pe1 with children := some (jsSpliceAfter (dupNewId n env) n l) }, ?_, by simp [hch]⟩
        dsimp only
        rw [lookup_insertJS, if_pos rfl]
  · -- the clone id lands right after the original among its siblings
    intro pe l1 l2 hpe hch hn1
    rw [hpe0] at hpe
    injection hpe with hpe
    subst hpe
    rw [hpost, hch]
    dsimp only
    rw [jsSpliceAfter_spec hn1]
    rw [lookup_insertJS, if_pos rfl]

/-- Every mirror clone has the shape of its original with the copy marker
appended to every name: same tree shape, same categories, same child order. -/
theorem shape_copy (t : ITree) :
    ∀ nid env σ, shapeOf (copyTree t nid env σ).1 = addCopyAll (shapeOf t) :=
  @ITree.rec
    (fun t => ∀ nid (env : Nat → Nat) (σ : Nat), shapeOf (copyTree t nid env σ).1 = addCopyAll (shapeOf t))
    (fun ks => ∀ nid (env : Nat → Nat) (σ : Nat), shapeOfL (copyKids ks nid env σ).1 = addCopyAllL (shapeOfL ks))
    (fun _ _ _ ks ihks => by
      intro nid env σ
      simp only [copyTree, shapeOf, addCopyAll]
      rw [ihks nid env σ])
    (fun _ _ _ => rfl)
    (fun hd tl ihhd ihtl => by
      intro nid env σ
      simp only [copyKids, shapeOfL, addCopyAllL]
      rw [ihhd _ env (σ + 1), ihtl nid env _])
    t

/-! ## Claim theorems -/

/-- C2 (counterexample): in the shipped league structure, `8u` is a child of
`monday`, yet after `deleteSubtree("monday")` the id `8u` is still a key of
the node map — descendants are not removed. -/
theorem delete_orphans_counterexample :
    ("8u" ∈ ((lookupJS leagueStructure "monday").map (fun it => it.children.getD [])).getD [])
    ∧ lookupJS (handleDelete "monday" leagueStructure) "8u" ≠ none := by
  decide

/-- C2 (amended): for a node with a parent, `deleteSubtree(n)` removes exactly
the entry of n itself from the map — every other key, including all of n's
descendants, keeps its value — and removes n from its former parent's
`children` list. -/
theorem delete_removes_only_node (m : Items) (n p : ItemId)
    (hpar : findParent m n = some p) (hpn : p ≠ n) :
    lookupJS (handleDelete n m) n = none
    ∧ (∀ k, k ≠ n → k ≠ p → lookupJS (handleDelete n m) k = lookupJS m k)
    ∧ (∃ pit, lookupJS m p = some pit ∧
        lookupJS (handleDelete n m) p =
          some { pit with children := pit.children.map (·.filter (fun i => decide (i ≠ n))) }) := by
  have hpS := findParent_isSome hpar
  obtain ⟨pit, hpit⟩ : ∃ pit, lookupJS m p = some pit := by
    cases hq : lookupJS m p with
    | none => rw [hq] at hpS; simp at hpS
    | some q => exact ⟨q, rfl⟩
  have hpost : handleDelete n m =
      removeJS n (insertJS p
        { pit with children := pit.children.map (·.filter (fun i => decide (i ≠ n))) } m) := by
    simp [handleDelete, hpar, hpit]
  refine ⟨?_, ?_, pit, hpit, ?_⟩
  · rw [hpost, lookup_removeJS_self]
  · intro k hkn hkp
    rw [hpost, lookup_removeJS_other _ hkn, lookup_insertJS, if_neg hkp]
  · rw [hpost, lookup_removeJS_other _ hpn, lookup_insertJS, if_pos rfl]

/-- C2 (witness): the amended claim at `deleteSubtree("monday")` on the
league structure. -/
theorem delete_removes_only_node_witness :
    (findParent leagueStructure "monday" = some "root" ∧ ("root" : ItemId) ≠ "monday")
    ∧ (lookupJS (handleDelete "monday" leagueStructure) "monday" = none
      ∧ (∀ k, k ≠ "monday" → k ≠ "root" →
          lookupJS (handleDelete "monday" leagueStructure) k = lookupJS leagueStructure k)
      ∧ (∃ pit, lookupJS leagueStructure "root" = some pit ∧
          lookupJS (handleDelete "monday" leagueStructure) "root" =
            some { pit with children := pit.children.map (·.filter (fun i => decide (i ≠ "monday"))) })) :=
  ⟨⟨by decide, by decide⟩,
   delete_removes_only_node leagueStructure "monday" "root" (by decide) (by decide)⟩

/-- C3 (counterexample): deleting the designated root of the shipped league
structure reports no `RootDeletion` failure — the operation's outcome is a
plain `ok` carrying the unchanged map. -/
theorem delete_root_counterexample :
    deleteOutcome "root" leagueStructure ≠ Except.error TreeError.RootDeletion
    ∧ handleDelete "root" leagueStructure = leagueStructure := by
  constructor
  · intro h
    simp [deleteOutcome] at h
  · decide

/-- C3 (amended): deleting the root — an id no `children` list holds — leaves
the tree unchanged and reports nothing: the delete handler's guard simply
skips every mutation, a silent no-op rather than an explicit failure. -/
theorem delete_root_silent_noop (m : Items) (h : findParent m "root" = none) :
    deleteOutcome "root" m = Except.ok m ∧ handleDelete "root" m = m := by
  constructor
  · simp [deleteOutcome, handleDelete, h]
  · simp [handleDelete, h]

/-- C3 (witness): the amended claim on the shipped league structure. -/
theorem delete_root_silent_noop_witness :
    findParent leagueStructure "root" = none
    ∧ (deleteOutcome "root" leagueStructure = Except.ok leagueStructure
      ∧ handleDelete "root" leagueStructure = leagueStructure) :=
  ⟨by decide, delete_root_silent_noop leagueStructure (by decide)⟩

/-- C8 (counterexample): renaming an id absent from the map (`ghost`) reports
no `NotFound` failure — the outcome is a plain `ok` with the unchanged map. -/
theorem rename_missing_counterexample :
    lookupJS leagueStructure "ghost" = none
    ∧ renameOutcome "ghost" "X" leagueStructure ≠ Except.error TreeError.NotFound
    ∧ handleRenameItem "ghost" "X" leagueStructure = leagueStructure := by
  refine ⟨by decide, ?_, by decide⟩
  intro h
  simp [renameOutcome] at h

/-- C8 (amended): renaming an id absent from the map leaves the map unchanged
and reports nothing: the handler's existence guard silently skips the write
instead of producing an error value. -/
theorem rename_missing_silent_noop (m : Items) (id : ItemId) (nm : String)
    (h : lookupJS m id = none) :
    renameOutcome id nm m = Except.ok m ∧ handleRenameItem id nm m = m := by
  constructor
  · simp [renameOutcome, handleRenameItem, h]
  · simp [handleRenameItem, h]

/-- C8 (witness): the amended claim at the absent id `ghost`. -/
theorem rename_missing_silent_noop_witness :
    lookupJS leagueStructure "ghost" = none
    ∧ (renameOutcome "ghost" "X" leagueStructure = Except.ok leagueStructure
      ∧ handleRenameItem "ghost" "X" leagueStructure = leagueStructure) :=
  ⟨by decide, rename_missing_silent_noop leagueStructure "ghost" "X" (by decide)⟩

theorem DescIn_lookup {fuel : Nat} {m : Items} {a d : ItemId}
    (h : DescIn fuel m a d) : ∃ it, lookupJS m a = some it := by
  cases fuel with
  | zero => exact h.elim
  | succ f =>
      obtain ⟨it, hit, -⟩ := h
      exact ⟨it, hit⟩

/-- C5: the empty query matches no node, and for a non-empty query the
ancestor "contains match" computation holds exactly when some proper
descendant (reachable within the same recursion depth) exists in the map and
has a name containing the query case-insensitively. -/
theorem search_semantics :
    (∀ it : Item, doesSearchMatchItem "" it = false)
    ∧ (∀ fuel m n q, q ≠ "" →
        (hasMatchingChildren fuel m n q = true ↔
          ∃ d, DescIn fuel m n d
            ∧ ∃ dit, lookupJS m d = some dit ∧ matchesName dit q = true)) := by
  constructor
  · intro it
    simp [doesSearchMatchItem]
  · intro fuel m n q hq
    induction fuel generalizing n with
    | zero =>
        simp only [hasMatchingChildren, DescIn]
        constructor
        · intro h; cases h
        · rintro ⟨d, hd, -⟩; exact hd.elim
    | succ f ih =>
        cases hl : lookupJS m n with
        | none =>
            have hfalse : hasMatchingChildren (f + 1) m n q = false := by
              simp [hasMatchingChildren, hq, hl]
            rw [hfalse]
            simp only [Bool.false_eq_true, false_iff]
            rintro ⟨d, ⟨it, hit, -⟩, -⟩
            rw [hl] at hit; cases hit
        | some it =>
            cases hc : it.children with
            | none =>
                have hfalse : hasMatchingChildren (f + 1) m n q = false := by
                  simp [hasMatchingChildren, hq, hl, hc]
                rw [hfalse]
                simp only [Bool.false_eq_true, false_iff]
                rintro ⟨d, ⟨it', hit', hor⟩, -⟩
                rw [hl] at hit'
                injection hit' with hit'
                subst hit'
                rw [hc] at hor
                simp at hor
            | some l =>
                by_cases he : l.isEmpty
                · rw [List.isEmpty_iff] at he
                  subst he
                  have hfalse : hasMatchingChildren (f + 1) m n q = false := by
                    simp [hasMatchingChildren, hq, hl, hc]
                  rw [hfalse]
                  simp only [Bool.false_eq_true, false_iff]
                  rintro ⟨d, ⟨it', hit', hor⟩, -⟩
                  rw [hl] at hit'
                  injection hit' with hit'
                  subst hit'
                  rw [hc] at hor
                  simp at hor
                · have hval : hasMatchingChildren (f + 1) m n q
                      = l.any (fun childId =>
                          match lookupJS m childId with
                          | none => false
                          | some childItem =>
                              matchesName childItem q || hasMatchingChildren f m childId q) := by
                    simp [hasMatchingChildren, hq, hl, hc, he]
                  rw [hval, List.any_eq_true]
                  constructor
                  · rintro ⟨c, hcl, hpred⟩
                    cases hlc : lookupJS m c with
                    | none => rw [hlc] at hpred; cases hpred
                    | some ci =>
                        rw [hlc] at hpred
                        rcases Bool.or_eq_true_iff.mp hpred with hm | hrec
                        · exact ⟨c, ⟨it, hl, Or.inl (by rw [hc]; exact hcl)⟩, ci, hlc, hm⟩
                        · obtain ⟨d, hdesc, dit, hdit, hdm⟩ := (ih c).mp hrec
                          exact ⟨d, ⟨it, hl, Or.inr ⟨c, by rw [hc]; exact hcl, hdesc⟩⟩, dit, hdit, hdm⟩
                  · rintro ⟨d, ⟨it', hit', hor⟩, dit, hdit, hdm⟩
                    rw [hl] at hit'
                    injection hit' with hit'
                    subst hit'
                    rw [hc] at hor
                    simp only [Option.getD_some] at hor
                    rcases hor with hdl | ⟨c, hcl, hcd⟩
                    · refine ⟨d, hdl, ?_⟩
                      rw [hdit]
                      exact Bool.or_eq_true_iff.mpr (Or.inl hdm)
                    · refine ⟨c, hcl, ?_⟩
                      obtain ⟨ci, hci⟩ := DescIn_lookup hcd
                      rw [hci]
                      exact Bool.or_eq_true_iff.mpr
                        (Or.inr ((ih c).mpr ⟨d, hcd, dit, hdit, hdm⟩))

/-- C5 (witness): the descendant-match characterisation instantiated on the
shipped league structure with the non-empty query `mon`. -/
theorem search_semantics_witness :
    ("mon" : String) ≠ ""
    ∧ (hasMatchingChildren 5 leagueStructure "root" "mon" = true ↔
        ∃ d, DescIn 5 leagueStructure "root" d
          ∧ ∃ dit, lookupJS leagueStructure d = some dit ∧ matchesName dit "mon" = true) :=
  ⟨by decide, search_semantics.2 5 leagueStructure "root" "mon" (by decide)⟩

/-- C6 (counterexample): on a store whose key insertion order differs from the
tree's pre-order, the search scroll target is the first match in key order
(`b`), not the first match in a pre-order traversal from the root (`a`). -/
theorem firstMatch_order_counterexample :
    firstMatchId 5 sampleOrder "x" = some "b"
    ∧ firstMatchPreorder 5 sampleOrder "x" = some "a"
    ∧ ("b" : ItemId) ≠ "a" := by
  refine ⟨by decide, by decide, by decide⟩

theorem find_eq_head_filter {α : Type} (l : List α) (p : α → Bool) :
    l.find? p = (l.filter p).head? := by
  induction l with
  | nil => rfl
  | cons a as ih =>
      by_cases ha : p a
      · simp [List.find?_cons, List.filter_cons, ha]
      · simp only [List.find?_cons, List.filter_cons, ha, Bool.false_eq_true, if_false]
        exact ih

theorem findSome_none {α β : Type} {l : List α} {f : α → Option β}
    (h : ∀ a ∈ l, f a = none) : l.findSome? f = none := by
  induction l with
  | nil => rfl
  | cons a as ih =>
      rw [List.findSome?_cons, h a (List.mem_cons_self a as)]
      exact ih (fun x hx => h x (List.mem_cons_of_mem a hx))

/-- With unique keys, the key-order direct-match scan is the entry filter. -/
theorem directMatches_eq (m : Items) (q : String) (hkeys : (keysOf m).Nodup) :
    directMatches m q = (m.filter (fun pr => matchesName pr.2 q)).map Prod.fst := by
  induction m with
  | nil => rfl
  | cons pr ps ih =>
      obtain ⟨pk, pv⟩ := pr
      simp only [keysOf, List.map_cons, List.nodup_cons] at hkeys
      obtain ⟨hpk, hps⟩ := hkeys
      have hself : lookupJS ((pk, pv) :: ps) pk = some pv := by simp [lookupJS]
      have hcong : List.filter (fun id =>
            match lookupJS ((pk, pv) :: ps) id with
            | some it => matchesName it q
            | none => false) (keysOf ps)
          = directMatches ps q := by
        unfold directMatches
        refine List.filter_congr ?_
        intro id hid
        have hne : ¬ pk = id := fun he => hpk (he ▸ hid)
        have hl : lookupJS ((pk, pv) :: ps) id = lookupJS ps id := by
          simp [lookupJS, hne]
        rw [hl]
      unfold directMatches
      have hkeyscons : keysOf ((pk, pv) :: ps) = pk :: keysOf ps := rfl
      rw [hkeyscons, List.filter_cons, List.filter_cons]
      simp only [hself]
      by_cases hm : matchesName pv q = true
      · rw [if_pos hm, if_pos hm, List.map_cons, hcong, ih hps]
      · rw [if_neg hm, if_neg hm, hcong, ih hps]

/-- C6 (amended): for a store with unique keys, `firstMatch` is the first
entry in the node map's key (insertion) order whose name matches the query —
not a pre-order traversal.  The descendant-match fallback never contributes: a
folder only passes `hasMatchingChildren` when some node matches directly, so
whenever the fallback is consulted (no direct match anywhere) it yields
nothing as well. -/
theorem firstMatch_keyOrder (fuel : Nat) (m : Items) (q : String)
    (hkeys : (keysOf m).Nodup) :
    firstMatchId fuel m q = (m.find? (fun pr => matchesName pr.2 q)).map Prod.fst := by
  rw [find_eq_head_filter]
  unfold firstMatchId
  rw [directMatches_eq m q hkeys]
  cases hf : m.filter (fun pr => matchesName pr.2 q) with
  | cons pr rest => simp
  | nil =>
      simp only [List.map_nil, Option.map_none']
      -- no entry matches at all, so every inner child scan is empty-handed
      have hno : ∀ k v, lookupJS m k = some v → matchesName v q = false := by
        intro k v hkv
        have hmem : (k, v) ∈ m := lookup_mem hkv
        by_contra hb
        have : (k, v) ∈ m.filter (fun pr => matchesName pr.2 q) := by
          rw [List.mem_filter]
          exact ⟨hmem, by simpa using hb⟩
        rw [hf] at this
        cases this
      refine findSome_none ?_
      intro folderId hfold
      cases hlf : lookupJS m folderId with
      | none => rfl
      | some folder =>
          simp only
          rw [List.find?_eq_none]
          intro childId hchild
          cases hlc : lookupJS m childId with
          | none => simp
          | some child => simp [hno childId child hlc]

/-- C6 (witness): the amended claim on the order-scrambled store. -/
theorem firstMatch_keyOrder_witness :
    (keysOf sampleOrder).Nodup
    ∧ firstMatchId 5 sampleOrder "x"
        = (sampleOrder.find? (fun pr => matchesName pr.2 "x")).map Prod.fst :=
  ⟨by decide, firstMatch_keyOrder 5 sampleOrder "x" (by decide)⟩

/-- The extracted subtree of node `a` in `sampleDup`. -/
def tDup : ITree := .node "a" "a" Category.Division [.node "b" "b" Category.Team []]

/-- C1 (counterexample): duplicating `a` (whose child `b` is named `b`) clones
`b` under the name `b (Copy)` — descendants do not keep their original names,
the copy marker is appended at every level. -/
theorem duplicate_names_counterexample :
    (lookupJS sampleDup "b").map (fun it => it.data.name) = some "b"
    ∧ (lookupJS (handleDuplicate 4 "a" (fun _ => 0) sampleDup) "a-copy-0").map
        (fun it => it.children) = some (some ["a-copy-0-b-0"])
    ∧ (lookupJS (handleDuplicate 4 "a" (fun _ => 0) sampleDup) "a-copy-0-b-0").map
        (fun it => it.data.name) = some "b (Copy)"
    ∧ ("b (Copy)" : String) ≠ "b" := by
  refine ⟨by decide, by decide, by decide, by decide⟩

/-- C1 (amended): for a present non-root node with fresh environment-drawn
clone ids, duplication yields a clone whose extracted subtree is the mirror
clone of the original's: identical shape, categories and child ordering, with
EVERY node's name (root and descendants alike) suffixed by `" (Copy)"`; the
original subtree is left intact and the two id sets are disjoint. -/
theorem duplicate_iso (fuel : Nat) (m : Items) (n : ItemId) (env : Nat → Nat)
    (orig : Item) (p : ItemId) (t : ITree)
    (hlk : lookupJS m n = some orig)
    (hpar : findParent m n = some p)
    (hex : extract fuel m n = some t)
    (hfr : DupFresh m n env t)
    (hpt : p ∉ idsOfT t) :
    extract fuel (handleDuplicate fuel n env m) (dupNewId n env) = some (dupClone t n env)
    ∧ shapeOf (dupClone t n env) = addCopyAll (shapeOf t)
    ∧ extract fuel (handleDuplicate fuel n env m) n = some t
    ∧ (∀ i ∈ idsOfT (dupClone t n env), i ∉ idsOfT t) := by
  obtain ⟨h1, h2, h3, h4, h5, h6, h7, h8, h9⟩ := dup_core fuel m n env orig p t hlk hpar hex hfr
  exact ⟨h2, shape_copy t (dupNewId n env) env 1, h7 hpt, h6⟩

/-- C1 (witness): the amended claim instantiated on `sampleDup`, duplicating
`a` at timestamp 0. -/
theorem duplicate_iso_witness :
    (DupFresh sampleDup "a" (fun _ => 0) tDup ∧ "root" ∉ idsOfT tDup)
    ∧ (extract 4 (handleDuplicate 4 "a" (fun _ => 0) sampleDup) (dupNewId "a" (fun _ => 0))
        = some (dupClone tDup "a" (fun _ => 0))
      ∧ shapeOf (dupClone tDup "a" (fun _ => 0)) = addCopyAll (shapeOf tDup)
      ∧ extract 4 (handleDuplicate 4 "a" (fun _ => 0) sampleDup) "a" = some tDup
      ∧ (∀ i ∈ idsOfT (dupClone tDup "a" (fun _ => 0)), i ∉ idsOfT tDup)) :=
  ⟨⟨⟨by decide, by decide⟩, by decide⟩,
   duplicate_iso 4 sampleDup "a" (fun _ => 0) (folderItem "a" Category.Division ["b"]) "root"
     tDup (by decide) (by decide) rfl ⟨by decide, by decide⟩ (by decide)⟩

/-- C7: with fresh clone ids, the clone root is spliced into the parent's
children immediately after the original's (first) position, leaving every
other sibling in place on both sides. -/
theorem duplicate_insert_after (fuel : Nat) (m : Items) (n : ItemId) (env : Nat → Nat)
    (orig : Item) (p : ItemId) (t : ITree) (pe : Item) (l1 l2 : List ItemId)
    (hlk : lookupJS m n = some orig)
    (hpar : findParent m n = some p)
    (hex : extract fuel m n = some t)
    (hfr : DupFresh m n env t)
    (hpe : lookupJS m p = some pe)
    (hch : pe.children = some (l1 ++ n :: l2))
    (hn1 : n ∉ l1) :
    lookupJS (handleDuplicate fuel n env m) p
      = some { pe with children := some (l1 ++ n :: dupNewId n env :: l2) } :=
  (dup_core fuel m n env orig p t hlk hpar hex hfr).2.2.2.2.2.2.2.2 pe l1 l2 hpe hch hn1

/-- C7 (witness): duplicating `a` in `sampleDup` rewrites the root's children
from `[a]` to `[a, a-copy-0]` — the clone directly after the original. -/
theorem duplicate_insert_after_witness :
    (DupFresh sampleDup "a" (fun _ => 0) tDup
      ∧ (folderItem "root" Category.Conference ["a"]).children = some ([] ++ "a" :: [])
      ∧ ("a" : ItemId) ∉ ([] : List ItemId))
    ∧ lookupJS (handleDuplicate 4 "a" (fun _ => 0) sampleDup) "root"
        = some { folderItem "root" Category.Conference ["a"] with
                 children := some ([] ++ "a" :: dupNewId "a" (fun _ => 0) :: []) } :=
  ⟨⟨⟨by decide, by decide⟩, by decide, by decide⟩,
   duplicate_insert_after 4 sampleDup "a" (fun _ => 0)
     (folderItem "a" Category.Division ["b"]) "root" tDup
     (folderItem "root" Category.Conference ["a"]) [] []
     (by decide) (by decide) rfl ⟨by decide, by decide⟩ (by decide) (by decide) (by decide)⟩

/-- C9 (counterexample): duplicating `a` twice with the same timestamp makes
the generator produce, for the second run, an id that is already a key of the
map; the second run adds no key at all, and the root's children list ends up
holding the same id `a-copy-7` twice. -/
theorem generator_collision_counterexample :
    dupNewId "a" (fun _ => 7) = "a-copy-7"
    ∧ (lookupJS (handleDuplicate 4 "a" (fun _ => 7) sampleClash)
        (dupNewId "a" (fun _ => 7))).isSome = true
    ∧ keysOf (handleDuplicate 4 "a" (fun _ => 7) (handleDuplicate 4 "a" (fun _ => 7) sampleClash))
        = keysOf (handleDuplicate 4 "a" (fun _ => 7) sampleClash)
    ∧ (lookupJS (handleDuplicate 4 "a" (fun _ => 7)
          (handleDuplicate 4 "a" (fun _ => 7) sampleClash)) "root").map (fun it => it.children)
        = some (some ["a", "a-copy-7", "a-copy-7"]) := by
  refine ⟨by decide, by decide, by decide, by decide⟩

/-- C9 (amended): uniqueness of generated ids is not guaranteed — the ids
embed environment timestamps with no collision check.  When the drawn ids
happen to be fresh and pairwise distinct, a duplication extends the key set by
exactly the clone ids, and a duplicate-free key set stays duplicate-free. -/
theorem generator_fresh_behavior (fuel : Nat) (m : Items) (n : ItemId) (env : Nat → Nat)
    (orig : Item) (p : ItemId) (t : ITree)
    (hlk : lookupJS m n = some orig)
    (hpar : findParent m n = some p)
    (hex : extract fuel m n = some t)
    (hfr : DupFresh m n env t) :
    (∀ k, (lookupJS (handleDuplicate fuel n env m) k).isSome ↔
        ((lookupJS m k).isSome ∨ k ∈ idsOfT (dupClone t n env)))
    ∧ ((keysOf m).Nodup → (keysOf (handleDuplicate fuel n env m)).Nodup) := by
  obtain ⟨h1, h2, h3, h4, h5, h6, h7, h8, h9⟩ := dup_core fuel m n env orig p t hlk hpar hex hfr
  exact ⟨h4, h5⟩

/-- C9 (witness): the amended claim instantiated on `sampleDup`. -/
theorem generator_fresh_behavior_witness :
    DupFresh sampleDup "a" (fun _ => 0) tDup
    ∧ ((∀ k, (lookupJS (handleDuplicate 4 "a" (fun _ => 0) sampleDup) k).isSome ↔
        ((lookupJS sampleDup k).isSome ∨ k ∈ idsOfT (dupClone tDup "a" (fun _ => 0))))
      ∧ ((keysOf sampleDup).Nodup →
          (keysOf (handleDuplicate 4 "a" (fun _ => 0) sampleDup)).Nodup)) :=
  ⟨⟨by decide, by decide⟩,
   generator_fresh_behavior 4 sampleDup "a" (fun _ => 0)
     (folderItem "a" Category.Division ["b"]) "root" tDup
     (by decide) (by decide) rfl ⟨by decide, by decide⟩⟩

/-- A store whose subtree carries `movable`/`renamable` set to `false`. -/
def sampleFlags : Items :=
  [ ("root", folderItem "root" Category.Conference ["a"]),
    ("a", { isFolder := some true, children := some ["b"],
            data := { name := "a", type := Category.Division },
            canMove := some false, canRename := some false }),
    ("b", { isFolder := some false,
            data := { name := "b", type := Category.Team },
            canMove := some false, canRename := some false }) ]

/-- C10: even when the original's capability flags are `false`, the clone root
and every cloned descendant are stored with both `canMove` and `canRename`
set to `true` — duplication does not preserve capability flags. -/
theorem duplicate_resets_capabilities (fuel : Nat) (m : Items) (n : ItemId) (env : Nat → Nat)
    (orig : Item) (p : ItemId) (t : ITree)
    (hlk : lookupJS m n = some orig)
    (hpar : findParent m n = some p)
    (hex : extract fuel m n = some t)
    (hfr : DupFresh m n env t)
    (hflag : orig.canMove = some false ∨ orig.canRename = some false) :
    ∀ k ∈ idsOfT (dupClone t n env), ∃ it,
      lookupJS (handleDuplicate fuel n env m) k = some it
        ∧ it.canMove = some true ∧ it.canRename = some true :=
  (dup_core fuel m n env orig p t hlk hpar hex hfr).2.2.1

/-- C10 (witness): duplicating the locked subtree of `sampleFlags` stores
clones whose flags are reset to `true`. -/
theorem duplicate_resets_capabilities_witness :
    (DupFresh sampleFlags "a" (fun _ => 0) tDup
      ∧ ({ isFolder := some true, children := some ["b"],
           data := { name := "a", type := Category.Division },
           canMove := some false, canRename := some false } : Item).canMove = some false)
    ∧ (∀ k ∈ idsOfT (dupClone tDup "a" (fun _ => 0)), ∃ it,
        lookupJS (handleDuplicate 4 "a" (fun _ => 0) sampleFlags) k = some it
          ∧ it.canMove = some true ∧ it.canRename = some true) :=
  ⟨⟨⟨by decide, by decide⟩, by decide⟩,
   duplicate_resets_capabilities 4 sampleFlags "a" (fun _ => 0)
     { isFolder := some true, children := some ["b"],
       data := { name := "a", type := Category.Division },
       canMove := some false, canRename := some false } "root" tDup
     (by decide) (by decide) rfl ⟨by decide, by decide⟩ (Or.inl (by decide))⟩

theorem map_children_ne_none {o : Option (List ItemId)} (h : o ≠ none)
    (f : List ItemId → List ItemId) : o.map f ≠ none := by
  cases o with
  | none => exact absurd rfl h
  | some l => simp

/-- Folder conversion survives `handleItemDrop`: a node that has a `children`
field still has one afterwards. -/
theorem handleItemDrop_keeps_container (m : Items) (tg p : ItemId) (it : Item)
    (hlk : lookupJS m p = some it) (hch : it.children ≠ none) :
    ∀ it', lookupJS (handleItemDrop tg m) p = some it' → it'.children ≠ none := by
  intro it' hit'
  unfold handleItemDrop at hit'
  cases htg : lookupJS m tg with
  | none =>
      rw [htg] at hit'
      rw [hlk] at hit'
      injection hit' with hit'
      subst hit'
      exact hch
  | some tgIt =>
      rw [htg] at hit'
      simp only at hit'
      rw [lookup_insertJS] at hit'
      by_cases hp : p = tg
      · rw [if_pos hp] at hit'
        injection hit' with hit'
        subst hit'
        have htgit : tgIt = it := by
          rw [hp] at hlk
          rw [htg] at hlk
          exact Option.some.inj hlk
        subst htgit
        by_cases hc : tgIt.children = none
        · exact absurd hc hch
        · simp only [hc, if_false]
          by_cases hf : tgIt.isFolder ≠ some true <;> simp [hf, hch]
      · rw [if_neg hp] at hit'
        rw [hlk] at hit'
        injection hit' with hit'
        subst hit'
        exact hch

/-- Folder conversion survives the library move: a node that has a `children`
field still has one afterwards. -/
theorem moveEntry_keeps_container (m : Items) (mv tg p : ItemId) (it : Item)
    (hlk : lookupJS m p = some it) (hch : it.children ≠ none) :
    ∀ it', lookupJS (moveEntry mv tg m) p = some it' → it'.children ≠ none := by
  intro it' hit'
  unfold moveEntry at hit'
  cases htg : lookupJS m tg with
  | none =>
      rw [htg] at hit'
      rw [hlk] at hit'
      injection hit' with hit'
      subst hit'
      exact hch
  | some tgIt =>
      rw [htg] at hit'
      simp only at hit'
      -- the record after the moved id is filtered from its parent
      have hm1 : ∀ k it1, lookupJS
          (match findParent m mv with
           | none => m
           | some pp =>
               match lookupJS m pp with
               | none => m
               | some pit =>
                   insertJS pp { pit with
                     children := pit.children.map (·.filter (fun i => decide (i ≠ mv))) } m) k
          = some it1 →
          (∀ itk, lookupJS m k = some itk → itk.children = none → it1.children = none)
          ∧ (∀ itk, lookupJS m k = some itk → itk.children ≠ none → it1.children ≠ none) := by
        intro k it1 h1
        cases hfp : findParent m mv with
        | none =>
            simp only [hfp] at h1
            constructor
            · intro itk hitk hc
              rw [h1] at hitk; injection hitk with hitk; rw [hitk]; exact hc
            · intro itk hitk hc
              rw [h1] at hitk; injection hitk with hitk; rw [hitk]; exact hc
        | some pp =>
            simp only [hfp] at h1
            cases hpp : lookupJS m pp with
            | none =>
                simp only [hpp] at h1
                constructor
                · intro itk hitk hc
                  rw [h1] at hitk; injection hitk with hitk; rw [hitk]; exact hc
                · intro itk hitk hc
                  rw [h1] at hitk; injection hitk with hitk; rw [hitk]; exact hc
            | some pit =>
                simp only [hpp] at h1
                rw [lookup_insertJS] at h1
                by_cases hk : k = pp
                · rw [if_pos hk] at h1
                  injection h1 with h1
                  subst h1
                  constructor
                  · intro itk hitk hc
                    rw [hk] at hitk
                    rw [hpp] at hitk
                    injection hitk with hitk
                    subst hitk
                    simp [hc]
                  · intro itk hitk hc
                    rw [hk] at hitk
                    rw [hpp] at hitk
                    injection hitk with hitk
                    subst hitk
                    exact map_children_ne_none hc _
                · rw [if_neg hk] at h1
                  constructor
                  · intro itk hitk hc
                    rw [h1] at hitk; injection hitk with hitk; rw [hitk]; exact hc
                  · intro itk hitk hc
                    rw [h1] at hitk; injection hitk with hitk; rw [hitk]; exact hc
      cases htg1 : lookupJS
          (match findParent m mv with
           | none => m
           | some pp =>
               match lookupJS m pp with
               | none => m
               | some pit =>
                   insertJS pp { pit with
                     children := pit.children.map (·.filter (fun i => decide (i ≠ mv))) } m) tg with
      | none =>
          simp only [htg1] at hit'
          obtain ⟨hkeep0, hkeep1⟩ := hm1 p it' hit'
          exact hkeep1 it hlk hch
      | some tit =>
          simp only [htg1] at hit'
          rw [lookup_insertJS] at hit'
          by_cases hp : p = tg
          · rw [if_pos hp] at hit'
            injection hit' with hit'
            subst hit'
            simp
          · rw [if_neg hp] at hit'
            obtain ⟨hkeep0, hkeep1⟩ := hm1 p it' hit'
            exact hkeep1 it hlk hch

theorem append_ne_self (s t : String) (h : t.length ≠ 0) : s ++ t ≠ s := by
  intro he
  have := congrArg String.length he
  rw [String.length_append] at this
  omega

/-- The drop handler keeps an existing `children` list unchanged. -/
theorem handleItemDrop_children (m2 : Items) (tg p : ItemId) (X : Item) (l : List ItemId)
    (h : lookupJS m2 p = some X) (hc : X.children = some l) :
    ∃ Y, lookupJS (handleItemDrop tg m2) p = some Y ∧ Y.children = some l := by
  unfold handleItemDrop
  cases htg : lookupJS m2 tg with
  | none => exact ⟨X, h, hc⟩
  | some tgIt =>
      dsimp only
      rw [lookup_insertJS]
      by_cases hp : p = tg
      · subst hp
        rw [h] at htg
        injection htg with htg
        subst htg
        rw [if_pos rfl]
        refine ⟨_, rfl, ?_⟩
        by_cases hf : X.isFolder ≠ some true <;> simp [hc, hf]
      · rw [if_neg hp]
        exact ⟨X, h, hc⟩

/-- After the library move, the drop target holds a `children` list ending in
the moved id. -/
theorem moveEntry_target (m : Items) (moved p : ItemId) (it : Item)
    (hlk : lookupJS m p = some it) :
    ∃ X l, lookupJS (moveEntry moved p m) p = some X ∧ X.children = some l ∧ moved ∈ l := by
  unfold moveEntry
  rw [hlk]
  dsimp only
  have hm1 : ∃ X0, lookupJS
      (match findParent m moved with
       | none => m
       | some pp =>
           match lookupJS m pp with
           | none => m
           | some pit =>
               insertJS pp { pit with
                 children := pit.children.map (·.filter (fun i => decide (i ≠ moved))) } m) p
      = some X0 := by
    cases hfp : findParent m moved with
    | none => dsimp only; exact ⟨it, hlk⟩
    | some pp =>
        dsimp only
        cases hpp : lookupJS m pp with
        | none => dsimp only; exact ⟨it, hlk⟩
        | some pit =>
            dsimp only
            rw [lookup_insertJS]
            by_cases hp : p = pp
            · rw [if_pos hp]; exact ⟨_, rfl⟩
            · rw [if_neg hp]; exact ⟨it, hlk⟩
  obtain ⟨X0, hX0⟩ := hm1
  rw [hX0]
  dsimp only
  rw [lookup_insertJS, if_pos rfl]
  exact ⟨_, X0.children.getD [] ++ [moved], rfl, rfl,
    List.mem_append_right _ (List.mem_singleton.mpr rfl)⟩

/-- The library move never removes an entry. -/
theorem moveEntry_present (m : Items) (mv tg p : ItemId) (it : Item)
    (hlk : lookupJS m p = some it) : ∃ X, lookupJS (moveEntry mv tg m) p = some X := by
  unfold moveEntry
  cases htg : lookupJS m tg with
  | none => exact ⟨it, hlk⟩
  | some tgIt =>
      dsimp only
      have hm1 : ∃ X0, lookupJS
          (match findParent m mv with
           | none => m
           | some pp =>
               match lookupJS m pp with
               | none => m
               | some pit =>
                   insertJS pp { pit with
                     children := pit.children.map (·.filter (fun i => decide (i ≠ mv))) } m) p
          = some X0 := by
        cases hfp : findParent m mv with
        | none => dsimp only; exact ⟨it, hlk⟩
        | some pp =>
            dsimp only
            cases hpp : lookupJS m pp with
            | none => dsimp only; exact ⟨it, hlk⟩
            | some pit =>
                dsimp only
                rw [lookup_insertJS]
                by_cases hp : p = pp
                · rw [if_pos hp]; exact ⟨_, rfl⟩
                · rw [if_neg hp]; exact ⟨it, hlk⟩
      obtain ⟨X0, hX0⟩ := hm1
      cases htg1 : lookupJS
          (match findParent m mv with
           | none => m
           | some pp =>
               match lookupJS m pp with
               | none => m
               | some pit =>
                   insertJS pp { pit with
                     children := pit.children.map (·.filter (fun i => decide (i ≠ mv))) } m) tg with
      | none => exact ⟨X0, hX0⟩
      | some tit =>
          dsimp only
          rw [lookup_insertJS]
          by_cases hp : p = tg
          · rw [if_pos hp]; exact ⟨_, rfl⟩
          · rw [if_neg hp]; exact ⟨X0, hX0⟩

/-- A drop that passes validation performs exactly the library move. -/
theorem reparentDrop_ok (fuel : Nat) (mv tg : ItemId) (m m' : Items)
    (h : reparentDrop fuel mv tg m = Except.ok m') : m' = moveEntry mv tg m := by
  unfold reparentDrop at h
  cases hmv : lookupJS m mv with
  | none => rw [hmv] at h; cases h
  | some mit =>
      cases htg : lookupJS m tg with
      | none => rw [hmv, htg] at h; cases h
      | some tit =>
          rw [hmv, htg] at h
          dsimp only at h
          by_cases h1 : mit.canMove = some false
          · rw [if_pos h1] at h; cases h
          · rw [if_neg h1] at h
            by_cases h2 : tg = mv ∨ isDescendantB fuel m mv tg = true
            · rw [if_pos h2] at h; cases h
            · rw [if_neg h2] at h
              exact (Except.ok.inj h).symm

/-- C4: attaching a child to a node without a `children` field — via the
add-sub-group handler or via a validated drop — leaves that node with
`children` defined and containing the new or moved id (a drop the library
refuses, by `NotFound`, `NotMovable` or `CyclicMove`, attaches nothing); and
once a node has a `children` field, no operation of the component (with
well-behaved duplicate id draws) ever removes it again, so the
Leaf→Container transition is one-way. -/
theorem leaf_to_container :
    (∀ m p it ts, lookupJS m p = some it → it.children = none →
      ∃ it' l, lookupJS (handleAddSubGroup p ts m) p = some it'
        ∧ it'.children = some l ∧ addSubGroupId p ts ∈ l)
    ∧ (∀ fuel m p it moved m', lookupJS m p = some it → it.children = none →
      reparentDrop fuel moved p m = Except.ok m' →
      ∃ it' l, lookupJS (applyDrop fuel moved p m) p = some it'
        ∧ it'.children = some l ∧ moved ∈ l)
    ∧ (∀ op m p it, OpFresh op m → lookupJS m p = some it → it.children ≠ none →
      ∀ it', lookupJS (applyOp op m) p = some it' → it'.children ≠ none) := by
  refine ⟨?_, ?_, ?_⟩
  · -- add-sub-group onto a leaf
    intro m p it ts hlk hch
    have hne : ¬ p = addSubGroupId p ts := by
      intro he
      have : p ++ ("-subgroup-" ++ Nat.repr ts) ≠ p := by
        refine append_ne_self p _ ?_
        rw [String.length_append]
        have h10 : ("-subgroup-" : String).length = 10 := rfl
        omega
      exact this (by rw [← String.append_assoc]; exact he.symm)
    have hm1p : lookupJS (insertJS (addSubGroupId p ts)
        { isFolder := some true, children := some [],
          data := { name := "New Group", type := Category.Division },
          canMove := some true, canRename := some true } m) p = some it := by
      rw [lookup_insertJS, if_neg hne]
      exact hlk
    have hres : lookupJS (handleAddSubGroup p ts m) p
        = some { it with isFolder := some true, children := some (addSubGroupId p ts :: it.children.getD []) } := by
      simp only [handleAddSubGroup, hm1p]
      rw [lookup_insertJS, if_pos rfl]
    exact ⟨_, addSubGroupId p ts :: it.children.getD [], hres, rfl, List.mem_cons_self _ _⟩
  · -- validated drop onto a leaf
    intro fuel m p it moved m' hlk hch hok
    have hm' := reparentDrop_ok fuel moved p m m' hok
    obtain ⟨X, l, hX, hcl, hml⟩ := moveEntry_target m moved p it hlk
    obtain ⟨Y, hY, hcl2⟩ := handleItemDrop_children (moveEntry moved p m) p p X l hX hcl
    refine ⟨Y, l, ?_, hcl2, hml⟩
    simp only [applyDrop, hok, hm']
    exact hY
  · -- the transition is one-way
    intro op m p it hop hlk hch it' hit'
    cases op with
    | rename id nm =>
        simp only [applyOp, handleRenameItem] at hit'
        cases hid : lookupJS m id with
        | none =>
            rw [hid] at hit'
            rw [hlk] at hit'
            injection hit' with hit'
            subst hit'
            exact hch
        | some r =>
            rw [hid] at hit'
            simp only at hit'
            rw [lookup_insertJS] at hit'
            by_cases hp : p = id
            · rw [if_pos hp] at hit'
              injection hit' with hit'
              subst hit'
              have : r = it := by
                rw [hp] at hlk
                rw [hid] at hlk
                exact Option.some.inj hlk
              subst this
              exact hch
            · rw [if_neg hp] at hit'
              rw [hlk] at hit'
              injection hit' with hit'
              subst hit'
              exact hch
    | edit id nm ty =>
        simp only [applyOp, handleEditItem] at hit'
        cases hid : lookupJS m id with
        | none =>
            rw [hid] at hit'
            rw [hlk] at hit'
            injection hit' with hit'
            subst hit'
            exact hch
        | some r =>
            rw [hid] at hit'
            simp only at hit'
            rw [lookup_insertJS] at hit'
            by_cases hp : p = id
            · rw [if_pos hp] at hit'
              injection hit' with hit'
              subst hit'
              have : r = it := by
                rw [hp] at hlk
                rw [hid] at hlk
                exact Option.some.inj hlk
              subst this
              exact hch
            · rw [if_neg hp] at hit'
              rw [hlk] at hit'
              injection hit' with hit'
              subst hit'
              exact hch
    | addSubGroup q ts =>
        simp only [applyOp, handleAddSubGroup] at hit'
        cases hq : lookupJS (insertJS (addSubGroupId q ts)
            { isFolder := some true, children := some [],
              data := { name := "New Group", type := Category.Division },
              canMove := some true, canRename := some true } m) q with
        | none =>
            rw [hq] at hit'
            rw [lookup_insertJS] at hit'
            by_cases hp : p = addSubGroupId q ts
            · rw [if_pos hp] at hit'
              injection hit' with hit'
              subst hit'
              simp
            · rw [if_neg hp] at hit'
              rw [hlk] at hit'
              injection hit' with hit'
              subst hit'
              exact hch
        | some pit =>
            rw [hq] at hit'
            simp only at hit'
            rw [lookup_insertJS] at hit'
            by_cases hp : p = q
            · rw [if_pos hp] at hit'
              injection hit' with hit'
              subst hit'
              simp
            · rw [if_neg hp] at hit'
              rw [lookup_insertJS] at hit'
              by_cases hp2 : p = addSubGroupId q ts
              · rw [if_pos hp2] at hit'
                injection hit' with hit'
                subst hit'
                simp
              · rw [if_neg hp2] at hit'
                rw [hlk] at hit'
                injection hit' with hit'
                subst hit'
                exact hch
    | createTopLevel nm ty ts =>
        simp only [applyOp, handleCreateTopLevelGroup] at hit'
        cases hq : lookupJS (insertJS (topGroupId ts)
            { isFolder := some true, children := some [],
              data := { name := nm, type := ty },
              canMove := some true, canRename := some true } m) "root" with
        | none =>
            rw [hq] at hit'
            rw [lookup_insertJS] at hit'
            by_cases hp : p = topGroupId ts
            · rw [if_pos hp] at hit'
              injection hit' with hit'
              subst hit'
              simp
            · rw [if_neg hp] at hit'
              rw [hlk] at hit'
              injection hit' with hit'
              subst hit'
              exact hch
        | some r =>
            rw [hq] at hit'
            simp only at hit'
            rw [lookup_insertJS] at hit'
            by_cases hp : p = "root"
            · rw [if_pos hp] at hit'
              injection hit' with hit'
              subst hit'
              simp
            · rw [if_neg hp] at hit'
              rw [lookup_insertJS] at hit'
              by_cases hp2 : p = topGroupId ts
              · rw [if_pos hp2] at hit'
                injection hit' with hit'
                subst hit'
                simp
              · rw [if_neg hp2] at hit'
                rw [hlk] at hit'
                injection hit' with hit'
                subst hit'
                exact hch
    | deleteIt id =>
        simp only [applyOp, handleDelete] at hit'
        cases hfp : findParent m id with
        | none =>
            rw [hfp] at hit'
            rw [hlk] at hit'
            injection hit' with hit'
            subst hit'
            exact hch
        | some pp =>
            simp only [hfp] at hit'
            cases hpp : lookupJS m pp with
            | none =>
                simp only [hpp] at hit'
                rw [hlk] at hit'
                injection hit' with hit'
                subst hit'
                exact hch
            | some pit =>
                simp only [hpp] at hit'
                by_cases hpid : p = id
                · rw [hpid] at hit'
                  rw [lookup_removeJS_self] at hit'
                  cases hit'
                · rw [lookup_removeJS_other _ hpid, lookup_insertJS] at hit'
                  by_cases hp : p = pp
                  · rw [if_pos hp] at hit'
                    injection hit' with hit'
                    subst hit'
                    have : pit = it := by
                      rw [hp] at hlk
                      rw [hpp] at hlk
                      exact Option.some.inj hlk
                    subst this
                    exact map_children_ne_none hch _
                  · rw [if_neg hp] at hit'
                    rw [hlk] at hit'
                    injection hit' with hit'
                    subst hit'
                    exact hch
    | duplicate fuel id env =>
        simp only [applyOp] at hit'
        simp only [OpFresh] at hop
        cases hid : lookupJS m id with
        | none =>
            simp only [handleDuplicate, hid] at hit'
            rw [hlk] at hit'
            injection hit' with hit'
            subst hit'
            exact hch
        | some orig =>
            cases hfp : findParent m id with
            | none =>
                simp only [handleDuplicate, hid, hfp] at hit'
                rw [hlk] at hit'
                injection hit' with hit'
                subst hit'
                exact hch
            | some pp =>
                rw [hid, hfp] at hop
                cases hext : extract fuel m id with
                | none => rw [hext] at hop; exact hop.elim
                | some t =>
                    rw [hext] at hop
                    obtain ⟨hc1, hc2, hc3, hc4, hc5, hc6, hc7, hc8, hc9⟩ :=
                      dup_core fuel m id env orig pp t hid hfp hext hop
                    by_cases hp : p = pp
                    · subst hp
                      obtain ⟨pe2, hpe2, hiff⟩ := hc8 it hlk
                      rw [hit'] at hpe2
                      injection hpe2 with hpe2
                      subst hpe2
                      intro hnone
                      exact hch (hiff.mp hnone)
                    · have hpct : p ∉ idsOfT (dupClone t id env) := by
                        intro hmem
                        have := hop.2 p hmem
                        rw [hlk] at this
                        cases this
                      rw [hc1 p hpct hp] at hit'
                      rw [hlk] at hit'
                      injection hit' with hit'
                      subst hit'
                      exact hch
    | drop fuel mv tg =>
        simp only [applyOp, applyDrop] at hit'
        cases hrd : reparentDrop fuel mv tg m with
        | error e =>
            rw [hrd] at hit'
            rw [hlk] at hit'
            injection hit' with hit'
            subst hit'
            exact hch
        | ok m1 =>
            rw [hrd] at hit'
            have hm1 := reparentDrop_ok fuel mv tg m m1 hrd
            subst hm1
            obtain ⟨X, hX⟩ := moveEntry_present m mv tg p it hlk
            have h1 := moveEntry_keeps_container m mv tg p it hlk hch X hX
            exact handleItemDrop_keeps_container (moveEntry mv tg m) tg p X hX h1 it' hit'

/-- C4 (witness): adding a sub-group to the leaf team `team-8u-1` of the
league structure makes it a container holding the new group's id, and a drop
of `team-12u-1` onto the leaf `team-8u-2` passes the library's validation and
makes the leaf a container holding the moved id. -/
theorem leaf_to_container_witness :
    (lookupJS leagueStructure "team-8u-1" = some (teamItem "Tigers")
      ∧ (teamItem "Tigers").children = none
      ∧ reparentDrop 5 "team-12u-1" "team-8u-2" leagueStructure
          = Except.ok (moveEntry "team-12u-1" "team-8u-2" leagueStructure))
    ∧ (∃ it' l, lookupJS (handleAddSubGroup "team-8u-1" 5 leagueStructure) "team-8u-1" = some it'
        ∧ it'.children = some l ∧ addSubGroupId "team-8u-1" 5 ∈ l)
    ∧ (∃ it' l, lookupJS (applyDrop 5 "team-12u-1" "team-8u-2" leagueStructure) "team-8u-2" = some it'
        ∧ it'.children = some l ∧ ("team-12u-1" : ItemId) ∈ l) :=
  ⟨⟨by decide, by decide, by rfl⟩,
   leaf_to_container.1 leagueStructure "team-8u-1" (teamItem "Tigers") 5 (by decide) (by decide),
   leaf_to_container.2.1 5 leagueStructure "team-8u-2" (teamItem "Lions") "team-12u-1"
     (moveEntry "team-12u-1" "team-8u-2" leagueStructure)
     (by decide) (by decide) (by rfl)⟩
